import Mathlib

/-!
# Shallow embedding of `alpha_and_stencil_blend` (modules/blender/src/blender.c)

The kernel works on the linear byte memory of its host.  Pointers are byte
addresses, `NULL` is address `0`, a `uint32_t` access touches four consecutive
bytes in little-endian order, and an access to an unmapped byte is a fault.
`size_t` is the 32-bit unsigned type of the wasm32 target the module is built
for, `int` is its 32-bit signed type.
-/

namespace Blender

/-! ## Memory -/

/-- One byte of linear memory. -/
abbrev Byte := Fin 256

/-- Linear memory: a partial map from byte addresses to bytes. -/
abbrev Memory := Int → Option Byte

/-- The low byte of a natural number, as stored by a narrowing write. -/
def byte_of (w : Nat) : Byte := ⟨w % 256, Nat.mod_lt w (by decide)⟩

/-- Little-endian value of four bytes. -/
def word_of (b0 b1 b2 b3 : Byte) : Nat :=
  b0.val + 256 * b1.val + 65536 * b2.val + 16777216 * b3.val

/-- Read of a `uint32_t` through a pointer `p`: the four bytes at `p .. p+3`. -/
def load32 (m : Memory) (p : Int) : Option Nat :=
  match m p, m (p + 1), m (p + 2), m (p + 3) with
  | some b0, some b1, some b2, some b3 => some (word_of b0 b1 b2 b3)
  | _, _, _, _ => none

/-- Write of a `uint32_t` through a pointer `p`: all four bytes must be mapped. -/
def store32 (m : Memory) (p : Int) (w : Nat) : Option Memory :=
  match m p, m (p + 1), m (p + 2), m (p + 3) with
  | some _, some _, some _, some _ =>
    some (fun x =>
      if x = p then some (byte_of w)
      else if x = p + 1 then some (byte_of (w / 256))
      else if x = p + 2 then some (byte_of (w / 65536))
      else if x = p + 3 then some (byte_of (w / 16777216))
      else m x)
  | _, _, _, _ => none

/-! ## Execution state -/

/-- Why a run of the model stops without a result. -/
inductive Trap where
  | fault
  | fuel
  deriving DecidableEq, Repr

/-- The pointer variable through which a byte was accessed. -/
inductive Via where
  | colorSrc
  | alphaSrc
  | colorDst
  deriving DecidableEq, Repr

/-- One byte access of the kernel. -/
structure Access where
  via : Via
  addr : Int
  deriving DecidableEq, Repr

/-- The four byte accesses of one `uint32_t` access through `p`. -/
def word_access (v : Via) (p : Int) : List Access :=
  [⟨v, p⟩, ⟨v, p + 1⟩, ⟨v, p + 2⟩, ⟨v, p + 3⟩]

/-- Local variables of the `if (alpha)` block, the memory, and the log of
byte accesses in program order. -/
structure Kernel where
  mem : Memory
  colorSrc : Int
  colorDst : Int
  alphaSrc : Int
  alphaDst : Int
  stencil32 : Int
  trace : List Access

/-! ## Constants of the kernel -/

/-- `const size_t Unroll = 4;` -/
def Unroll : Nat := 4

/-- `const uint32_t alphaMask = 0xFF000000;` -/
def alphaMask : Nat := 0xFF000000

/-- `const uint32_t rgbMask = 0x00FFFFFF;` -/
def rgbMask : Nat := 0x00FFFFFF

/-- Number of values of `size_t` (32 bits). -/
def SIZE_MOD : Nat := 4294967296

/-- Conversion of an `int` to `size_t`, as in `size_t remaining = num_pixels;`. -/
def to_size_t (n : Int) : Nat := (n % (SIZE_MOD : Int)).toNat

/-- `const size_t PixelsAtOnce = 4 * Unroll;` in `size_t` arithmetic, for an
unroll factor `U`. -/
def PixelsAtOnce (U : Nat) : Nat := (4 * U) % SIZE_MOD

/-! ## The kernel -/

/-- The statement
`*colorDst++ = (*colorSrc++ & rgbMask) | (*alphaSrc++ & alphaMask);`. -/
def combine (k : Kernel) : Except Trap Kernel :=
  match load32 k.mem k.colorSrc, load32 k.mem k.alphaSrc with
  | some c, some a =>
    match store32 k.mem k.colorDst ((c &&& rgbMask) ||| (a &&& alphaMask)) with
    | some m =>
      .ok { k with
        mem := m
        colorSrc := k.colorSrc + 4
        colorDst := k.colorDst + 4
        alphaSrc := k.alphaSrc + 4
        trace := k.trace ++ (word_access .colorSrc k.colorSrc
          ++ word_access .alphaSrc k.alphaSrc ++ word_access .colorDst k.colorDst) }
    | none => .error .fault
  | _, _ => .error .fault

/-- The body of the `for` loop: four combine statements. -/
def combine4 (k : Kernel) : Except Trap Kernel :=
  combine k >>= combine >>= combine >>= combine

/-- The loop `for (size_t unrolling = 0; unrolling < Unroll; unrolling++)`,
by the number of iterations still to run. -/
def for_unrolling : Nat → Kernel → Except Trap Kernel
  | 0, k => .ok k
  | u + 1, k => combine4 k >>= for_unrolling u

/-- The loop `while (remaining >= PixelsAtOnce) { ...; remaining -= PixelsAtOnce; }`
with unroll factor `U`; it returns the value of `remaining` at exit.  The first
argument bounds the number of iterations. -/
def bulk_loop (U : Nat) : Nat → Nat → Kernel → Except Trap (Nat × Kernel)
  | 0, remaining, k =>
    if PixelsAtOnce U ≤ remaining then .error .fuel else .ok (remaining, k)
  | fuel + 1, remaining, k =>
    if PixelsAtOnce U ≤ remaining then
      for_unrolling U k >>= bulk_loop U fuel (remaining - PixelsAtOnce U)
    else .ok (remaining, k)

/-- The loop `while (remaining-- != 0) { ... }`. -/
def tail_loop : Nat → Kernel → Except Trap Kernel
  | 0, k => .ok k
  | remaining + 1, k => combine k >>= tail_loop remaining

/-- The function `alpha_and_stencil_blend` with unroll factor `U`: the final
memory and the byte accesses made. -/
def blend_unrolled (U : Nat) (mem : Memory) (color alpha stencil : Int)
    (num_pixels : Int) : Except Trap (Memory × List Access) :=
  if alpha ≠ 0 then
    let k : Kernel :=
      { mem := mem
        colorSrc := color
        colorDst := color
        alphaSrc := alpha - 2
        alphaDst := alpha - 2
        stencil32 := stencil
        trace := [] }
    let remaining := to_size_t num_pixels
    bulk_loop U remaining remaining k >>= fun r =>
    tail_loop r.1 r.2 >>= fun k' =>
    .ok (k'.mem, k'.trace)
  else .ok (mem, [])

/-- The function `alpha_and_stencil_blend` of the source (`Unroll = 4`). -/
def alpha_and_stencil_blend (mem : Memory) (color alpha stencil : Int)
    (num_pixels : Int) : Except Trap (Memory × List Access) :=
  blend_unrolled Unroll mem color alpha stencil num_pixels

/-! ## Reference loops -/

/-- The byte accesses of the masked word combine on pixel `i`. -/
def pixel_access (color alpha : Int) (i : Nat) : List Access :=
  word_access .colorSrc (color + 4 * i) ++ word_access .alphaSrc (alpha - 2 + 4 * i)
    ++ word_access .colorDst (color + 4 * i)

/-- The byte accesses of the masked word combines on pixels `i, i+1, ...`
(`count` of them), in increasing order. -/
def pixel_trace (color alpha : Int) : Nat → Nat → List Access
  | 0, _ => []
  | count + 1, i => pixel_access color alpha i ++ pixel_trace color alpha count (i + 1)

/-- The masked word combine on pixel `i` of the buffers at `color` and `alpha`:
`newWord = (colorWord & 0x00FFFFFF) | (shiftedOpacityWord & 0xFF000000)`, the
shifted opacity word being read two bytes before pixel `i` of the opacity
source. -/
def combine_pixel (color alpha : Int) (i : Nat) (s : Memory × List Access) :
    Except Trap (Memory × List Access) :=
  match load32 s.1 (color + 4 * i), load32 s.1 (alpha - 2 + 4 * i) with
  | some c, some a =>
    match store32 s.1 (color + 4 * i) ((c &&& rgbMask) ||| (a &&& alphaMask)) with
    | some m => .ok (m, s.2 ++ pixel_access color alpha i)
    | none => .error .fault
  | _, _ => .error .fault

/-- A single loop of masked word combines over the pixels `i, i+1, ...`
(`count` of them). -/
def single_loop (color alpha : Int) : Nat → Nat → Memory × List Access →
    Except Trap (Memory × List Access)
  | 0, _, s => .ok s
  | count + 1, i, s => combine_pixel color alpha i s >>= single_loop color alpha count (i + 1)

/-- The kernel as one plain loop: the masked word combine once per pixel for
`i = 0 .. n-1`, nothing when the opacity source is null. -/
def blend_single_loop (mem : Memory) (color alpha : Int) (n : Nat) :
    Except Trap (Memory × List Access) :=
  if alpha ≠ 0 then single_loop color alpha n 0 (mem, []) else .ok (mem, [])

/-- The byte assignment `color[4i+3] := alpha[4i+1]`. -/
def byte_assign (color alpha : Int) (i : Nat) (m : Memory) : Except Trap Memory :=
  match m (alpha + 4 * i + 1), m (color + 4 * i + 3) with
  | some g, some _ => .ok (fun x => if x = color + 4 * i + 3 then some g else m x)
  | _, _ => .error .fault

/-- The byte assignments for the pixels `i, i+1, ...` (`count` of them). -/
def byte_loop (color alpha : Int) : Nat → Nat → Memory → Except Trap Memory
  | 0, _, m => .ok m
  | count + 1, i, m => byte_assign color alpha i m >>= byte_loop color alpha count (i + 1)

/-- The byte-exact per-pixel definition of the spec (the commented-out
`else if (alpha)` loop): `for i in [0, n): color[4i+3] := alpha[4i+1]`. -/
def blend_bytes (mem : Memory) (color alpha : Int) (n : Nat) : Except Trap Memory :=
  byte_loop color alpha n 0 mem

/-! ## Preconditions -/

/-- The `len` bytes starting at `base` are mapped. -/
def Mapped (m : Memory) (base : Int) (len : Nat) : Prop :=
  ∀ k : Nat, k < len → (m (base + k)).isSome = true

instance (m : Memory) (base : Int) (len : Nat) : Decidable (Mapped m base len) := by
  unfold Mapped; infer_instance

/-- No green byte of the opacity source is the alpha byte of an earlier pixel
of the color buffer: the read of the opacity of pixel `i` never observes an
alpha byte that was already written. -/
def NoClobber (color alpha : Int) (n : Nat) : Prop :=
  ∀ i : Nat, i < n → ∀ j : Nat, j < i → alpha + 4 * i + 1 ≠ color + 4 * j + 3

instance (color alpha : Int) (n : Nat) : Decidable (NoClobber color alpha n) := by
  unfold NoClobber; infer_instance

/-- No green byte of the opacity source is an alpha byte of the color buffer:
the kernel leaves the opacity it consumes unchanged. -/
def Separate (color alpha : Int) (n : Nat) : Prop :=
  ∀ i : Nat, i < n → ∀ j : Nat, j < n → alpha + 4 * i + 1 ≠ color + 4 * j + 3

instance (color alpha : Int) (n : Nat) : Decidable (Separate color alpha n) := by
  unfold Separate; infer_instance

/-- The color buffer `[color, color + 4n)` and the opacity region
`[alpha - 2, alpha + 4n)` do not overlap. -/
def BuffersDisjoint (color alpha : Int) (n : Nat) : Prop :=
  color + 4 * n ≤ alpha - 2 ∨ alpha + 4 * n ≤ color

instance (color alpha : Int) (n : Nat) : Decidable (BuffersDisjoint color alpha n) := by
  unfold BuffersDisjoint; infer_instance

/-- The kernel state in which the three moving pointers stand at pixel `i`. -/
def at_pixel (color alpha alphaDst stencil32 : Int) (i : Nat) (s : Memory × List Access) :
    Kernel :=
  { mem := s.1
    colorSrc := color + 4 * i
    colorDst := color + 4 * i
    alphaSrc := alpha - 2 + 4 * i
    alphaDst := alphaDst
    stencil32 := stencil32
    trace := s.2 }

/-! ## Outcomes and access bounds -/

/-- Two runs end alike: both stop with the same trap, or both return, with the
same access log and with memories that agree at every address in `S`. -/
def SameOutcome (S : Int → Prop) :
    Except Trap (Memory × List Access) → Except Trap (Memory × List Access) → Prop
  | .ok r1, .ok r2 => (∀ x, S x → r1.1 x = r2.1 x) ∧ r1.2 = r2.2
  | .error e1, .error e2 => e1 = e2
  | _, _ => False

/-- The bounds of a byte access: a read of the opacity source lies at an
offset in `[-2, 4n - 2)` from `alpha`, a read or write of the color buffer at an
offset in `[0, 4n)` from `color`. -/
def InBounds (color alpha : Int) (n : Nat) (acc : Access) : Prop :=
  match acc.via with
  | .alphaSrc => alpha - 2 ≤ acc.addr ∧ acc.addr < alpha + 4 * n - 2
  | .colorSrc => color ≤ acc.addr ∧ acc.addr < color + 4 * n
  | .colorDst => color ≤ acc.addr ∧ acc.addr < color + 4 * n

/-! ## Concrete memories -/

/-- The `len` bytes of `m` from `base` on. -/
def dump (m : Memory) (base : Int) (len : Nat) : List (Option Byte) :=
  (List.range len).map fun k => m (base + k)

/-- Five color pixels `(10,20,30,0)` at address 100, five opacity pixels
`(0,200,0,0)` at address 200 with two mapped bytes before them, and a stencil
buffer of twenty bytes `v` at address 300. -/
def mem5 (v : Byte) : Memory := fun x =>
  if 100 ≤ x ∧ x < 120 then
    some (if (x - 100) % 4 = 0 then 10 else if (x - 100) % 4 = 1 then 20
      else if (x - 100) % 4 = 2 then 30 else 0)
  else if 198 ≤ x ∧ x < 220 then some (if (x - 200) % 4 = 1 then 200 else 0)
  else if 300 ≤ x ∧ x < 320 then some v
  else none

/-- Seventeen color pixels at address 1000 and seventeen opacity pixels at
address 2000 (two mapped bytes before them) whose green bytes are `g[i] = i*10`. -/
def mem17 : Memory := fun x =>
  if 1000 ≤ x ∧ x < 1068 then some 7
  else if 1998 ≤ x ∧ x < 2068 then
    some (if (x - 2000) % 4 = 1 then byte_of (((x - 2000) / 4).toNat * 10) else 0)
  else none

/-- One color pixel `(10,20,30,0)` at address 16 and one opacity pixel
`(0,200,0,0)` at address 32 with two mapped bytes before it. -/
def mem1 : Memory := fun x =>
  if 16 ≤ x ∧ x < 20 then
    some (if x = 16 then 10 else if x = 17 then 20 else if x = 18 then 30 else 0)
  else if 30 ≤ x ∧ x < 36 then some (if x = 33 then 200 else 0)
  else none

/-- As `mem5`, with a second opacity source at address 400 that has the same
green bytes `200` and the byte `v` everywhere else, also in the two bytes
before it. -/
def mem5b (v : Byte) : Memory := fun x =>
  if 398 ≤ x ∧ x < 420 then some (if (x - 400) % 4 = 1 then 200 else v)
  else mem5 0 x

/-! ## Loop instrumentation -/

/-- The kernel state at the entry of the bulk loop: the declarations at the
head of the `if (alpha)` block. -/
def entry_state (mem : Memory) (color alpha stencil : Int) : Kernel :=
  { mem := mem
    colorSrc := color
    colorDst := color
    alphaSrc := alpha - 2
    alphaDst := alpha - 2
    stencil32 := stencil
    trace := [] }

/-- The bulk loop `while (remaining >= PixelsAtOnce) { ... }` with a ghost
counter: it returns the number of iterations run, the value of `remaining` at
exit, and the state. -/
def bulk_loop_count (U : Nat) : Nat → Nat → Kernel → Except Trap (Nat × Nat × Kernel)
  | 0, remaining, k =>
    if PixelsAtOnce U ≤ remaining then .error .fuel else .ok (0, remaining, k)
  | fuel + 1, remaining, k =>
    if PixelsAtOnce U ≤ remaining then
      for_unrolling U k >>= fun k' =>
      bulk_loop_count U fuel (remaining - PixelsAtOnce U) k' >>= fun r =>
      .ok (r.1 + 1, r.2)
    else .ok (0, remaining, k)

/-- The addresses of the bytes written through `colorDst`, in program order. -/
def stores (t : List Access) : List Int :=
  (t.filter fun acc => decide (acc.via = Via.colorDst)).map fun acc => acc.addr

/-- Five pixels at address 100 with the two bytes before them mapped; the byte
at address `x` is `x - 98`, so pixel `i` is `(4i+2, 4i+3, 4i+4, 4i+5)`. -/
def mem_self : Memory := fun x =>
  if 98 ≤ x ∧ x < 120 then some (byte_of (x - 98).toNat) else none

/-- Five color pixels `(10,10,10,v)` at address 100, five opacity pixels with
green byte `200` at address 200 and five opacity pixels with green byte `77` at
address 400, each opacity source with two mapped bytes before it. -/
def mem5c (v : Byte) : Memory := fun x =>
  if 100 ≤ x ∧ x < 120 then some (if (x - 100) % 4 = 3 then v else 10)
  else if 198 ≤ x ∧ x < 220 then some (if (x - 200) % 4 = 1 then 200 else 0)
  else if 398 ≤ x ∧ x < 420 then some (if (x - 400) % 4 = 1 then 77 else 0)
  else none

/-! # Proofs -/

/-! ## Words and masks -/

theorem testBit_byte_high (hi k : Nat) (hhi : hi < 256) (hk : 8 ≤ k) :
    hi.testBit k = false := by
  apply Nat.testBit_lt_two_pow
  calc hi < 2 ^ 8 := by simpa using hhi
    _ ≤ 2 ^ k := Nat.pow_le_pow_right (by norm_num) hk

theorem land_alphaMask (lo hi : Nat) (hlo : lo < 2 ^ 24) (hhi : hi < 256) :
    (2 ^ 24 * hi + lo) &&& alphaMask = 2 ^ 24 * hi := by
  apply Nat.eq_of_testBit_eq
  intro j
  have h255 : alphaMask = 2 ^ 24 * (2 ^ 8 - 1) := by norm_num [alphaMask]
  rw [Nat.testBit_and, h255, Nat.testBit_mul_pow_two, Nat.testBit_mul_pow_two,
    Nat.testBit_mul_pow_two_add hi hlo, Nat.testBit_two_pow_sub_one]
  by_cases h : j < 24
  · have h' : ¬ 24 ≤ j := by omega
    simp [h, h']
  · have h' : 24 ≤ j := by omega
    by_cases h8 : j - 24 < 8
    · simp [h, h', h8]
    · simp [h, h', h8, testBit_byte_high hi (j - 24) hhi (by omega)]

theorem land_rgbMask (x : Nat) : x &&& rgbMask = x % 2 ^ 24 := by
  have := Nat.and_pow_two_sub_one_eq_mod x 24
  simpa [rgbMask] using this

theorem word_of_alphaMask (b0 b1 b2 b3 : Byte) :
    word_of b0 b1 b2 b3 &&& alphaMask = 2 ^ 24 * b3.val := by
  have h := land_alphaMask (b0.val + 256 * b1.val + 65536 * b2.val) b3.val (by omega) b3.isLt
  have e : word_of b0 b1 b2 b3 = 2 ^ 24 * b3.val + (b0.val + 256 * b1.val + 65536 * b2.val) := by
    unfold word_of; omega
  rw [e]; exact h

theorem word_of_rgbMask (b0 b1 b2 b3 : Byte) :
    word_of b0 b1 b2 b3 &&& rgbMask = b0.val + 256 * b1.val + 65536 * b2.val := by
  rw [land_rgbMask]; unfold word_of; omega

theorem combine_word (c0 c1 c2 c3 s0 s1 s2 s3 : Byte) :
    (word_of c0 c1 c2 c3 &&& rgbMask) ||| (word_of s0 s1 s2 s3 &&& alphaMask)
      = word_of c0 c1 c2 s3 := by
  rw [word_of_rgbMask, word_of_alphaMask, Nat.lor_comm,
    ← Nat.mul_add_lt_is_or (by omega) s3.val]
  unfold word_of; omega

theorem byte0_word_of (b0 b1 b2 b3 : Byte) : byte_of (word_of b0 b1 b2 b3) = b0 := by
  apply Fin.ext; simp only [byte_of, word_of]; omega

theorem byte1_word_of (b0 b1 b2 b3 : Byte) : byte_of (word_of b0 b1 b2 b3 / 256) = b1 := by
  apply Fin.ext; simp only [byte_of, word_of]; omega

theorem byte2_word_of (b0 b1 b2 b3 : Byte) : byte_of (word_of b0 b1 b2 b3 / 65536) = b2 := by
  apply Fin.ext; simp only [byte_of, word_of]; omega

theorem byte3_word_of (b0 b1 b2 b3 : Byte) :
    byte_of (word_of b0 b1 b2 b3 / 16777216) = b3 := by
  apply Fin.ext; simp only [byte_of, word_of]; omega

/-! ## The result monad -/

@[simp] theorem ok_bind {α β : Type} (a : α) (f : α → Except Trap β) :
    (Except.ok a >>= f) = f a := rfl

@[simp] theorem error_bind {α β : Type} (e : Trap) (f : α → Except Trap β) :
    ((Except.error e : Except Trap α) >>= f) = Except.error e := rfl

/-! ## The kernel loops as a single loop -/

theorem combine_at_pixel (c a ad st : Int) (i : Nat) (s : Memory × List Access) :
    combine (at_pixel c a ad st i s)
      = combine_pixel c a i s >>= fun s' => .ok (at_pixel c a ad st (i + 1) s') := by
  have e1 : c + 4 * ((i + 1 : Nat) : Int) = c + 4 * (i : Int) + 4 := by push_cast; ring
  have e2 : a - 2 + 4 * ((i + 1 : Nat) : Int) = a - 2 + 4 * (i : Int) + 4 := by
    push_cast; ring
  simp only [combine, combine_pixel, at_pixel, pixel_access, e1, e2]
  rcases load32 s.1 (c + 4 * (i : Int)) with _ | cw
  · rfl
  rcases load32 s.1 (a - 2 + 4 * (i : Int)) with _ | aw
  · rfl
  simp only []
  rcases store32 s.1 (c + 4 * (i : Int)) ((cw &&& rgbMask) ||| (aw &&& alphaMask)) with _ | m
  · rfl
  · rfl

theorem single_loop_add (c a : Int) (n1 n2 i : Nat) (s : Memory × List Access) :
    single_loop c a (n1 + n2) i s = single_loop c a n1 i s >>= single_loop c a n2 (i + n1) := by
  induction n1 generalizing i s with
  | zero => simp [single_loop]
  | succ n1 ih =>
    have e : i + 1 + n1 = i + (n1 + 1) := by omega
    rw [Nat.add_right_comm, single_loop, single_loop, bind_assoc]
    congr 1; funext s'
    rw [ih, e]

theorem tail_loop_at_pixel (c a ad st : Int) (r i : Nat) (s : Memory × List Access) :
    tail_loop r (at_pixel c a ad st i s)
      = single_loop c a r i s >>= fun s' => .ok (at_pixel c a ad st (i + r) s') := by
  induction r generalizing i s with
  | zero => simp [tail_loop, single_loop]
  | succ r ih =>
    rw [tail_loop, single_loop, combine_at_pixel, bind_assoc, bind_assoc]
    congr 1; funext s'
    rw [ok_bind, ih]; congr 1; funext s''; congr 2; omega

theorem combine4_at_pixel (c a ad st : Int) (i : Nat) (s : Memory × List Access) :
    combine4 (at_pixel c a ad st i s)
      = single_loop c a 4 i s >>= fun s' => .ok (at_pixel c a ad st (i + 4) s') := by
  have h := tail_loop_at_pixel c a ad st 4 i s
  rw [← h]
  simp only [combine4, tail_loop, bind_assoc]
  congr 1; funext k1; congr 1; funext k2; congr 1; funext k3
  cases combine k3 <;> rfl

theorem for_unrolling_at_pixel (c a ad st : Int) (u i : Nat) (s : Memory × List Access) :
    for_unrolling u (at_pixel c a ad st i s)
      = single_loop c a (4 * u) i s >>= fun s' => .ok (at_pixel c a ad st (i + 4 * u) s') := by
  induction u generalizing i s with
  | zero => simp [for_unrolling, single_loop]
  | succ u ih =>
    have e : 4 * (u + 1) = 4 + 4 * u := by omega
    rw [for_unrolling, combine4_at_pixel, e, single_loop_add, bind_assoc, bind_assoc]
    congr 1; funext s'
    rw [ok_bind, ih]; congr 1; funext s''; congr 2; omega

theorem bulk_tail_at_pixel (U : Nat) (hU : 0 < U) (hU4 : 4 * U < SIZE_MOD) (c a ad st : Int)
    (fuel remaining i : Nat) (hf : remaining ≤ fuel) (s : Memory × List Access) :
    (bulk_loop U fuel remaining (at_pixel c a ad st i s) >>= fun r => tail_loop r.1 r.2)
      = single_loop c a remaining i s >>= fun s' =>
          .ok (at_pixel c a ad st (i + remaining) s') := by
  have hP : PixelsAtOnce U = 4 * U := by unfold PixelsAtOnce; exact Nat.mod_eq_of_lt hU4
  induction fuel generalizing remaining i s with
  | zero =>
    have h0 : remaining = 0 := by omega
    subst h0
    have : ¬ PixelsAtOnce U ≤ 0 := by omega
    simp [bulk_loop, this, tail_loop, single_loop]
  | succ fuel ih =>
    unfold bulk_loop
    by_cases h : PixelsAtOnce U ≤ remaining
    · rw [if_pos h, for_unrolling_at_pixel, bind_assoc, bind_assoc]
      have e : remaining = 4 * U + (remaining - PixelsAtOnce U) := by omega
      conv_rhs => rw [e, single_loop_add, bind_assoc]
      congr 1; funext s'
      rw [ok_bind, ih _ _ (by omega)]
      congr 1; funext s''; congr 2; omega
    · rw [if_neg h, ok_bind, tail_loop_at_pixel]

theorem to_size_t_cast (n : Nat) (hn : n < 2 ^ 31) : to_size_t (n : Int) = n := by
  unfold to_size_t SIZE_MOD
  have h : (n : Int) % ((4294967296 : Nat) : Int) = (n : Int) := by
    apply Int.emod_eq_of_lt <;> omega
  rw [h]; simp

theorem blend_unrolled_eq_single_loop (U : Nat) (hU : 0 < U) (hU4 : 4 * U < SIZE_MOD)
    (m : Memory) (c a st : Int) (n : Nat) (hn : n < 2 ^ 31) :
    blend_unrolled U m c a st (n : Int) = blend_single_loop m c a n := by
  unfold blend_unrolled blend_single_loop
  by_cases ha : a ≠ 0
  · rw [if_pos ha, if_pos ha]
    simp only [to_size_t_cast n hn]
    have h := bulk_tail_at_pixel U hU hU4 c a (a - 2) st n n 0 (le_refl n) (m, [])
    have e : at_pixel c a (a - 2) st 0 (m, []) =
        { mem := m, colorSrc := c, colorDst := c, alphaSrc := a - 2, alphaDst := a - 2,
          stencil32 := st, trace := [] } := by
      simp [at_pixel]
    rw [e] at h
    rw [← bind_assoc, h, bind_assoc]
    cases single_loop c a n 0 (m, []) <;> rfl
  · rw [if_neg ha, if_neg ha]

/-! ## One masked word combine is one byte assignment -/

theorem isSome_get {x : Option Byte} (h : x.isSome = true) : ∃ b, x = some b := by
  cases x with
  | none => simp at h
  | some b => exact ⟨b, rfl⟩

theorem combine_pixel_mapped (c a : Int) (i : Nat) (m : Memory) (t : List Access)
    (hc : ∀ k : Nat, k < 4 → (m (c + 4 * i + k)).isSome = true)
    (hs : ∀ k : Nat, k < 4 → (m (a - 2 + 4 * i + k)).isSome = true) :
    ∃ g, m (a + 4 * i + 1) = some g ∧ (m (c + 4 * i + 3)).isSome = true ∧
      combine_pixel c a i (m, t)
        = .ok (fun x => if x = c + 4 * i + 3 then some g else m x, t ++ pixel_access c a i) := by
  obtain ⟨c0, h0⟩ := isSome_get (hc 0 (by omega))
  obtain ⟨c1, h1⟩ := isSome_get (hc 1 (by omega))
  obtain ⟨c2, h2⟩ := isSome_get (hc 2 (by omega))
  obtain ⟨c3, h3⟩ := isSome_get (hc 3 (by omega))
  obtain ⟨s0, g0⟩ := isSome_get (hs 0 (by omega))
  obtain ⟨s1, g1⟩ := isSome_get (hs 1 (by omega))
  obtain ⟨s2, g2⟩ := isSome_get (hs 2 (by omega))
  obtain ⟨s3, g3⟩ := isSome_get (hs 3 (by omega))
  simp only [Nat.cast_ofNat, Nat.cast_zero, Nat.cast_one, add_zero] at h0 h1 h2 h3 g0 g1 g2 g3
  have e : a + 4 * (i : Int) + 1 = a - 2 + 4 * (i : Int) + 3 := by ring
  refine ⟨s3, by rw [e]; exact g3, by rw [h3]; rfl, ?_⟩
  simp only [combine_pixel, load32, store32, h0, h1, h2, h3, g0, g1, g2, g3, combine_word,
    byte0_word_of, byte1_word_of, byte2_word_of, byte3_word_of]
  congr 2
  funext x
  by_cases x0 : x = c + 4 * (i : Int)
  · have : x ≠ c + 4 * (i : Int) + 3 := by omega
    rw [if_pos x0, if_neg this, x0, h0]
  by_cases x1 : x = c + 4 * (i : Int) + 1
  · have : x ≠ c + 4 * (i : Int) + 3 := by omega
    rw [if_neg x0, if_pos x1, if_neg this, x1, h1]
  by_cases x2 : x = c + 4 * (i : Int) + 2
  · have : x ≠ c + 4 * (i : Int) + 3 := by omega
    rw [if_neg x0, if_neg x1, if_pos x2, if_neg this, x2, h2]
  rw [if_neg x0, if_neg x1, if_neg x2]

theorem byte_assign_ok (c a : Int) (i : Nat) (m m1 : Memory)
    (h : byte_assign c a i m = .ok m1) :
    ∃ g, m (a + 4 * i + 1) = some g ∧ (m (c + 4 * i + 3)).isSome = true ∧
      m1 = fun x => if x = c + 4 * i + 3 then some g else m x := by
  unfold byte_assign at h
  rcases hg : m (a + 4 * (i : Int) + 1) with _ | g
  · simp [hg] at h
  rcases hd : m (c + 4 * (i : Int) + 3) with _ | d
  · simp [hg, hd] at h
  simp only [hg, hd, Except.ok.injEq] at h
  exact ⟨g, rfl, rfl, h.symm⟩

theorem byte_assign_mapped (c a : Int) (i : Nat) (m : Memory) (g : Byte)
    (hg : m (a + 4 * i + 1) = some g) (hd : (m (c + 4 * i + 3)).isSome = true) :
    byte_assign c a i m = .ok (fun x => if x = c + 4 * i + 3 then some g else m x) := by
  obtain ⟨d, hd⟩ := isSome_get hd
  simp only [byte_assign, hg, hd]

/-! ## The single loop and the byte loop -/

theorem single_loop_mapped (c a : Int) (count i : Nat) (m : Memory) (t : List Access)
    (hc : ∀ j : Nat, i ≤ j → j < i + count → ∀ k : Nat, k < 4 →
      (m (c + 4 * j + k)).isSome = true)
    (hs : ∀ j : Nat, i ≤ j → j < i + count → ∀ k : Nat, k < 4 →
      (m (a - 2 + 4 * j + k)).isSome = true) :
    ∃ m', byte_loop c a count i m = .ok m' ∧
      single_loop c a count i (m, t) = .ok (m', t ++ pixel_trace c a count i) := by
  induction count generalizing i m t with
  | zero => exact ⟨m, rfl, by simp [single_loop, pixel_trace]⟩
  | succ count ih =>
    obtain ⟨g, hg, hd, hstep⟩ :=
      combine_pixel_mapped c a i m t (hc i (le_refl i) (by omega)) (hs i (le_refl i) (by omega))
    have hdom : ∀ x, ((if x = c + 4 * (i : Int) + 3 then some g else m x).isSome = true)
        ↔ (m x).isSome = true := by
      intro x
      by_cases hx : x = c + 4 * (i : Int) + 3
      · rw [if_pos hx, hx]; simp [hd]
      · rw [if_neg hx]
    obtain ⟨m', hb, hl⟩ := ih (i + 1)
      (fun x => if x = c + 4 * (i : Int) + 3 then some g else m x) (t ++ pixel_access c a i)
      (fun j h1 h2 k hk => (hdom _).2 (hc j (by omega) (by omega) k hk))
      (fun j h1 h2 k hk => (hdom _).2 (hs j (by omega) (by omega) k hk))
    refine ⟨m', ?_, ?_⟩
    · rw [byte_loop, byte_assign_mapped c a i m g hg hd, ok_bind, hb]
    · rw [single_loop, hstep, ok_bind, hl, pixel_trace, List.append_assoc]

theorem byte_loop_frame (c a : Int) (count i : Nat) (m m' : Memory)
    (h : byte_loop c a count i m = .ok m') :
    (∀ x, (m' x).isSome = (m x).isSome) ∧
      ∀ x, (∀ j : Nat, i ≤ j → j < i + count → x ≠ c + 4 * j + 3) → m' x = m x := by
  induction count generalizing i m with
  | zero =>
    simp only [byte_loop, Except.ok.injEq] at h
    subst h
    exact ⟨fun _ => rfl, fun _ _ => rfl⟩
  | succ count ih =>
    rw [byte_loop] at h
    rcases h1 : byte_assign c a i m with e | m1
    · rw [h1] at h; simp at h
    rw [h1, ok_bind] at h
    obtain ⟨g, hg, hd, rfl⟩ := byte_assign_ok c a i m m1 h1
    obtain ⟨ihd, ihf⟩ := ih (i + 1) _ h
    constructor
    · intro x
      rw [ihd x]
      by_cases hx : x = c + 4 * (i : Int) + 3
      · rw [if_pos hx, hx, hd]; rfl
      · rw [if_neg hx]
    · intro x hx
      rw [ihf x (fun j h1 h2 => hx j (by omega) (by omega))]
      rw [if_neg (hx i (le_refl i) (by omega))]

theorem byte_loop_alpha (c a : Int) (count i : Nat) (m m' : Memory)
    (hx : ∀ j : Nat, j < i + count → ∀ j' : Nat, i ≤ j' → j' < j →
      a + 4 * (j : Int) + 1 ≠ c + 4 * (j' : Int) + 3)
    (h : byte_loop c a count i m = .ok m') :
    ∀ j : Nat, i ≤ j → j < i + count → m' (c + 4 * j + 3) = m (a + 4 * j + 1) := by
  induction count generalizing i m with
  | zero => intro j h1 h2; omega
  | succ count ih =>
    rw [byte_loop] at h
    rcases h1 : byte_assign c a i m with e | m1
    · rw [h1] at h; simp at h
    rw [h1, ok_bind] at h
    obtain ⟨g, hg, hd, rfl⟩ := byte_assign_ok c a i m m1 h1
    intro j hj1 hj2
    by_cases hji : j = i
    · subst hji
      have hf := (byte_loop_frame c a count (j + 1) _ m' h).2 (c + 4 * (j : Int) + 3)
        (fun j' h1 h2 => by omega)
      rw [hf, if_pos rfl, hg]
    · have := ih (i + 1) _ (fun j h1 j' h2 h3 => hx j (by omega) j' (by omega) h3) h j
        (by omega) (by omega)
      rw [this, if_neg (hx j hj2 i (le_refl i) (by omega))]

/-! ## The whole kernel under its preconditions -/

theorem mapped_pixel (m : Memory) (base : Int) (n : Nat) (h : Mapped m base (4 * n))
    (j : Nat) (hj : j < n) (k : Nat) (hk : k < 4) :
    (m (base + 4 * j + k)).isSome = true := by
  have := h (4 * j + k) (by omega)
  have e : base + ((4 * j + k : Nat) : Int) = base + 4 * (j : Int) + (k : Int) := by
    push_cast; ring
  rw [e] at this; exact this

theorem blend_mapped (m : Memory) (c a st : Int) (n : Nat) (hn : n < 2 ^ 31) (ha : a ≠ 0)
    (hc : Mapped m c (4 * n)) (hs : Mapped m (a - 2) (4 * n)) :
    ∃ m', blend_bytes m c a n = .ok m' ∧
      alpha_and_stencil_blend m c a st n = .ok (m', pixel_trace c a n 0) := by
  obtain ⟨m', hb, hl⟩ := single_loop_mapped c a n 0 m []
    (fun j _ h2 k hk => mapped_pixel m c n hc j (by omega) k hk)
    (fun j _ h2 k hk => mapped_pixel m (a - 2) n hs j (by omega) k hk)
  refine ⟨m', hb, ?_⟩
  unfold alpha_and_stencil_blend
  rw [blend_unrolled_eq_single_loop Unroll (by decide) (by decide) m c a st n hn]
  unfold blend_single_loop
  rw [if_pos ha, hl]; rfl

theorem blend_bytes_frame (m m' : Memory) (c a : Int) (n : Nat)
    (h : blend_bytes m c a n = .ok m') (x : Int)
    (hx : ∀ j : Nat, j < n → x ≠ c + 4 * j + 3) : m' x = m x :=
  (byte_loop_frame c a n 0 m m' h).2 x (fun j _ h2 => hx j (by omega))

theorem blend_bytes_dom (m m' : Memory) (c a : Int) (n : Nat)
    (h : blend_bytes m c a n = .ok m') (x : Int) : (m' x).isSome = (m x).isSome :=
  (byte_loop_frame c a n 0 m m' h).1 x

theorem blend_bytes_alpha (m m' : Memory) (c a : Int) (n : Nat) (hx : NoClobber c a n)
    (h : blend_bytes m c a n = .ok m') (j : Nat) (hj : j < n) :
    m' (c + 4 * j + 3) = m (a + 4 * j + 1) :=
  byte_loop_alpha c a n 0 m m' (fun j h1 j' _ h3 => hx j (by omega) j' h3) h j
    (Nat.zero_le j) (by omega)

theorem noClobber_of_separate (c a : Int) (n : Nat) (h : Separate c a n) : NoClobber c a n :=
  fun i hi j hj => h i hi j (by omega)

theorem separate_of_disjoint (c a : Int) (n : Nat) (h : BuffersDisjoint c a n) :
    Separate c a n := by
  intro i hi j hj
  unfold BuffersDisjoint at h
  omega

theorem separate_self (c : Int) (n : Nat) : Separate c c n := by
  intro i _ j _
  omega

/-! ## The claims -/

/-- C1, alpha correctness.  For a pixel count `n` (an `int`, so below `2^31`), a
non-null opacity source with the `4n` bytes from `alpha - 2` mapped, a color
buffer of `4n` mapped bytes, and buffers that do not make the kernel read an
alpha byte it has already written, the call returns and the alpha byte of every
pixel `i < n` of the color buffer is the green byte that pixel `i` of the
opacity source had before the call. -/
theorem alpha_correctness (m : Memory) (color alpha stencil : Int) (n : Nat)
    (hn : n < 2 ^ 31) (ha : alpha ≠ 0) (hc : Mapped m color (4 * n))
    (hs : Mapped m (alpha - 2) (4 * n)) (hx : NoClobber color alpha n) :
    ∃ r, alpha_and_stencil_blend m color alpha stencil n = .ok r ∧
      ∀ i : Nat, i < n → r.1 (color + 4 * i + 3) = m (alpha + 4 * i + 1) := by
  obtain ⟨m', hb, hr⟩ := blend_mapped m color alpha stencil n hn ha hc hs
  exact ⟨_, hr, fun i hi => blend_bytes_alpha m m' color alpha n hx hb i hi⟩

/-- C2, channel isolation.  Under the same preconditions on the pixel count and
the mapped bytes (with any aliasing of the two buffers), the call returns and
the R, G and B bytes of every pixel `i < n` of the color buffer are as before
the call. -/
theorem channel_isolation (m : Memory) (color alpha stencil : Int) (n : Nat)
    (hn : n < 2 ^ 31) (ha : alpha ≠ 0) (hc : Mapped m color (4 * n))
    (hs : Mapped m (alpha - 2) (4 * n)) :
    ∃ r, alpha_and_stencil_blend m color alpha stencil n = .ok r ∧
      ∀ i : Nat, i < n →
        r.1 (color + 4 * i) = m (color + 4 * i) ∧
        r.1 (color + 4 * i + 1) = m (color + 4 * i + 1) ∧
        r.1 (color + 4 * i + 2) = m (color + 4 * i + 2) := by
  obtain ⟨m', hb, hr⟩ := blend_mapped m color alpha stencil n hn ha hc hs
  refine ⟨_, hr, fun i _ => ⟨?_, ?_, ?_⟩⟩ <;>
    exact blend_bytes_frame m m' color alpha n hb _ (fun j _ => by omega)

/-- C3, null-opacity no-op.  With a null opacity source the call returns the
memory it was given, whatever the color pointer, the stencil pointer and the
pixel count are, and it accesses no byte. -/
theorem null_opacity_noop (m : Memory) (color stencil : Int) (num_pixels : Int) :
    alpha_and_stencil_blend m color 0 stencil num_pixels = .ok (m, []) := by
  rfl

/-- C4, idempotence.  When no green byte of the opacity source is an alpha byte
of the color buffer (as for disjoint buffers), a second call with the same
arguments on the memory left by the first call returns that memory unchanged. -/
theorem blend_idempotent (m : Memory) (color alpha stencil : Int) (n : Nat)
    (hn : n < 2 ^ 31) (ha : alpha ≠ 0) (hc : Mapped m color (4 * n))
    (hs : Mapped m (alpha - 2) (4 * n)) (hx : Separate color alpha n) :
    ∃ r1, alpha_and_stencil_blend m color alpha stencil n = .ok r1 ∧
      ∃ r2, alpha_and_stencil_blend r1.1 color alpha stencil n = .ok r2 ∧ r2.1 = r1.1 := by
  obtain ⟨m1, hb1, hr1⟩ := blend_mapped m color alpha stencil n hn ha hc hs
  have hdom := blend_bytes_dom m m1 color alpha n hb1
  obtain ⟨m2, hb2, hr2⟩ := blend_mapped m1 color alpha stencil n hn ha
    (fun k hk => by rw [hdom]; exact hc k hk) (fun k hk => by rw [hdom]; exact hs k hk)
  refine ⟨_, hr1, _, hr2, ?_⟩
  funext x
  show m2 x = m1 x
  by_cases h : ∃ j : Nat, j < n ∧ x = color + 4 * j + 3
  · obtain ⟨j, hj, rfl⟩ := h
    rw [blend_bytes_alpha m1 m2 color alpha n (noClobber_of_separate _ _ _ hx) hb2 j hj,
      blend_bytes_alpha m m1 color alpha n (noClobber_of_separate _ _ _ hx) hb1 j hj]
    exact blend_bytes_frame m m1 color alpha n hb1 _ (fun j' hj' => hx j hj j' hj')
  · exact blend_bytes_frame m1 m2 color alpha n hb2 x (fun j hj hxj => h ⟨j, hj, hxj⟩)

/-- C6, the packed-word kernel refines the byte-exact definition.  Under the
preconditions on the pixel count and the mapped bytes, the byte loop
`for i in [0, n): color[4i+3] := alpha[4i+1]` returns a memory, and the call
returns that same memory, byte for byte at every address. -/
theorem blend_refines_byte_loop (m : Memory) (color alpha stencil : Int) (n : Nat)
    (hn : n < 2 ^ 31) (ha : alpha ≠ 0) (hc : Mapped m color (4 * n))
    (hs : Mapped m (alpha - 2) (4 * n)) :
    ∃ m', blend_bytes m color alpha n = .ok m' ∧
      ∃ t, alpha_and_stencil_blend m color alpha stencil n = .ok (m', t) := by
  obtain ⟨m', hb, hr⟩ := blend_mapped m color alpha stencil n hn ha hc hs
  exact ⟨m', hb, _, hr⟩

/-! ## Runs on memories that agree where the kernel looks -/

theorem load32_congr (m1 m2 : Memory) (p : Int)
    (h : ∀ k : Nat, k < 4 → m1 (p + k) = m2 (p + k)) : load32 m1 p = load32 m2 p := by
  have h0 := h 0 (by omega)
  have h1 := h 1 (by omega)
  have h2 := h 2 (by omega)
  have h3 := h 3 (by omega)
  simp only [Nat.cast_ofNat, Nat.cast_zero, Nat.cast_one, add_zero] at h0 h1 h2 h3
  simp only [load32, h0, h1, h2, h3]

theorem store32_congr (m1 m2 : Memory) (p : Int) (w : Nat)
    (h : ∀ k : Nat, k < 4 → m1 (p + k) = m2 (p + k)) :
    (store32 m1 p w = none ∧ store32 m2 p w = none) ∨
      ∃ m1' m2', store32 m1 p w = some m1' ∧ store32 m2 p w = some m2' ∧
        ∀ x, m1 x = m2 x → m1' x = m2' x := by
  have h0 := h 0 (by omega)
  have h1 := h 1 (by omega)
  have h2 := h 2 (by omega)
  have h3 := h 3 (by omega)
  simp only [Nat.cast_ofNat, Nat.cast_zero, Nat.cast_one, add_zero] at h0 h1 h2 h3
  simp only [store32, h0, h1, h2, h3]
  rcases m2 p with _ | b0
  · exact Or.inl ⟨rfl, rfl⟩
  rcases m2 (p + 1) with _ | b1
  · exact Or.inl ⟨rfl, rfl⟩
  rcases m2 (p + 2) with _ | b2
  · exact Or.inl ⟨rfl, rfl⟩
  rcases m2 (p + 3) with _ | b3
  · exact Or.inl ⟨rfl, rfl⟩
  refine Or.inr ⟨_, _, rfl, rfl, ?_⟩
  intro x hx
  simp only [hx]

theorem combine_pixel_congr (S : Int → Prop) (c a : Int) (i : Nat) (m1 m2 : Memory)
    (t : List Access) (hm : ∀ x, S x → m1 x = m2 x)
    (hc : ∀ k : Nat, k < 4 → S (c + 4 * i + k))
    (hs : ∀ k : Nat, k < 4 → S (a - 2 + 4 * i + k)) :
    (∃ e, combine_pixel c a i (m1, t) = .error e ∧ combine_pixel c a i (m2, t) = .error e) ∨
      ∃ m1' m2' t', combine_pixel c a i (m1, t) = .ok (m1', t') ∧
        combine_pixel c a i (m2, t) = .ok (m2', t') ∧ ∀ x, m1 x = m2 x → m1' x = m2' x := by
  have hcm : ∀ k : Nat, k < 4 → m1 (c + 4 * i + k) = m2 (c + 4 * i + k) :=
    fun k hk => hm _ (hc k hk)
  have hsm : ∀ k : Nat, k < 4 → m1 (a - 2 + 4 * i + k) = m2 (a - 2 + 4 * i + k) :=
    fun k hk => hm _ (hs k hk)
  simp only [combine_pixel, load32_congr m1 m2 _ hcm, load32_congr m1 m2 _ hsm]
  rcases load32 m2 (c + 4 * (i : Int)) with _ | cw
  · exact Or.inl ⟨_, rfl, rfl⟩
  rcases load32 m2 (a - 2 + 4 * (i : Int)) with _ | aw
  · exact Or.inl ⟨_, rfl, rfl⟩
  rcases store32_congr m1 m2 (c + 4 * (i : Int)) ((cw &&& rgbMask) ||| (aw &&& alphaMask)) hcm
    with ⟨e1, e2⟩ | ⟨m1', m2', e1, e2, hx⟩
  · simp only [e1, e2]; exact Or.inl ⟨_, rfl, rfl⟩
  · simp only [e1, e2]; exact Or.inr ⟨m1', m2', _, rfl, rfl, hx⟩

theorem single_loop_congr (S : Int → Prop) (c a : Int) (count i : Nat) (m1 m2 : Memory)
    (t : List Access) (hm : ∀ x, S x → m1 x = m2 x)
    (hc : ∀ j : Nat, i ≤ j → j < i + count → ∀ k : Nat, k < 4 → S (c + 4 * j + k))
    (hs : ∀ j : Nat, i ≤ j → j < i + count → ∀ k : Nat, k < 4 → S (a - 2 + 4 * j + k)) :
    SameOutcome S (single_loop c a count i (m1, t)) (single_loop c a count i (m2, t)) := by
  induction count generalizing i m1 m2 t with
  | zero => exact ⟨hm, rfl⟩
  | succ count ih =>
    rw [single_loop, single_loop]
    rcases combine_pixel_congr S c a i m1 m2 t hm (hc i (le_refl i) (by omega))
      (hs i (le_refl i) (by omega)) with ⟨e, e1, e2⟩ | ⟨m1', m2', t', e1, e2, hx⟩
    · rw [e1, e2]; exact rfl
    · rw [e1, e2, ok_bind, ok_bind]
      exact ih (i + 1) m1' m2' t' (fun x hS => hx x (hm x hS))
        (fun j h1 h2 => hc j (by omega) (by omega))
        (fun j h1 h2 => hs j (by omega) (by omega))

theorem sameOutcome_mono (S S' : Int → Prop) (h : ∀ x, S' x → S x)
    (r1 r2 : Except Trap (Memory × List Access)) (hr : SameOutcome S r1 r2) :
    SameOutcome S' r1 r2 := by
  cases r1 <;> cases r2 <;> simp only [SameOutcome] at hr ⊢
  · exact hr
  · exact ⟨fun x hx => hr.1 x (h x hx), hr.2⟩

/-! ## The access log -/

theorem combine_pixel_trace (c a : Int) (i : Nat) (s r : Memory × List Access)
    (h : combine_pixel c a i s = .ok r) : r.2 = s.2 ++ pixel_access c a i := by
  unfold combine_pixel at h
  rcases hl : load32 s.1 (c + 4 * (i : Int)) with _ | cw
  · simp [hl] at h
  rcases hl2 : load32 s.1 (a - 2 + 4 * (i : Int)) with _ | aw
  · simp [hl, hl2] at h
  rcases hst : store32 s.1 (c + 4 * (i : Int)) ((cw &&& rgbMask) ||| (aw &&& alphaMask))
    with _ | m
  · simp [hl, hl2, hst] at h
  · simp only [hl, hl2, hst, Except.ok.injEq] at h
    rw [← h]

theorem single_loop_trace (c a : Int) (count i : Nat) (s r : Memory × List Access)
    (h : single_loop c a count i s = .ok r) : r.2 = s.2 ++ pixel_trace c a count i := by
  induction count generalizing i s with
  | zero =>
    simp only [single_loop, Except.ok.injEq] at h
    rw [← h]; simp [pixel_trace]
  | succ count ih =>
    rw [single_loop] at h
    rcases h1 : combine_pixel c a i s with e | s1
    · rw [h1] at h; simp at h
    rw [h1, ok_bind] at h
    rw [ih (i + 1) s1 h, combine_pixel_trace c a i s s1 h1, pixel_trace, List.append_assoc]

theorem pixel_access_inBounds (c a : Int) (j n : Nat) (hj : j < n) (acc : Access)
    (h : acc ∈ pixel_access c a j) : InBounds c a n acc := by
  simp only [pixel_access, word_access, List.mem_append, List.mem_cons, List.mem_singleton,
    List.mem_nil_iff, or_false] at h
  rcases h with (((h | h | h | h) | (h | h | h | h)) | (h | h | h | h)) <;>
    (subst h; simp only [InBounds]; omega)

theorem pixel_trace_inBounds (c a : Int) (count i n : Nat) (hn : i + count ≤ n) (acc : Access)
    (h : acc ∈ pixel_trace c a count i) : InBounds c a n acc := by
  induction count generalizing i with
  | zero => simp [pixel_trace] at h
  | succ count ih =>
    rw [pixel_trace, List.mem_append] at h
    rcases h with h | h
    · exact pixel_access_inBounds c a i n (by omega) acc h
    · exact ih (i + 1) (by omega) h

theorem blend_trace (m : Memory) (c a st : Int) (n : Nat) (hn : n < 2 ^ 31)
    (r : Memory × List Access) (h : alpha_and_stencil_blend m c a st n = .ok r) :
    r.2 = [] ∨ r.2 = pixel_trace c a n 0 := by
  unfold alpha_and_stencil_blend at h
  rw [blend_unrolled_eq_single_loop Unroll (by decide) (by decide) m c a st n hn] at h
  unfold blend_single_loop at h
  by_cases ha : a ≠ 0
  · rw [if_pos ha] at h
    right
    simpa using single_loop_trace c a n 0 (m, []) r h
  · rw [if_neg ha] at h
    simp only [Except.ok.injEq] at h
    left; rw [← h]

/-- Witness of C1: the scenario `numPixels = 17` with green bytes `g[i] = i*10`. -/
theorem alpha_correctness_witness :
    ((17 : Nat) < 2 ^ 31 ∧ (2000 : Int) ≠ 0 ∧ Mapped mem17 1000 (4 * 17) ∧
        Mapped mem17 (2000 - 2) (4 * 17) ∧ NoClobber 1000 2000 17) ∧
      (∀ i : Nat, i < 17 → mem17 (2000 + 4 * i + 1) = some (byte_of (i * 10))) ∧
      ∃ r, alpha_and_stencil_blend mem17 1000 2000 0 (17 : Nat) = .ok r ∧
        ∀ i : Nat, i < 17 → r.1 (1000 + 4 * i + 3) = mem17 (2000 + 4 * i + 1) :=
  ⟨⟨by decide, by decide, by decide, by decide, by decide⟩, by decide,
    alpha_correctness mem17 1000 2000 0 17 (by decide) (by decide) (by decide) (by decide)
      (by decide)⟩

/-- Witness of C2: the scenario `numPixels = 5`, color pixels `(10,20,30,0)`,
opacity pixels `(0,200,0,0)`, result `(10,20,30,200)` five times. -/
theorem channel_isolation_witness :
    ((5 : Nat) < 2 ^ 31 ∧ (200 : Int) ≠ 0 ∧ Mapped (mem5 0) 100 (4 * 5) ∧
        Mapped (mem5 0) (200 - 2) (4 * 5)) ∧
      ((alpha_and_stencil_blend (mem5 0) 100 200 0 (5 : Nat)).toOption.map
          (fun r => dump r.1 100 20)
        = some [some 10, some 20, some 30, some 200, some 10, some 20, some 30, some 200,
            some 10, some 20, some 30, some 200, some 10, some 20, some 30, some 200,
            some 10, some 20, some 30, some 200]) ∧
      ∃ r, alpha_and_stencil_blend (mem5 0) 100 200 0 (5 : Nat) = .ok r ∧
        ∀ i : Nat, i < 5 →
          r.1 (100 + 4 * i) = mem5 0 (100 + 4 * i) ∧
          r.1 (100 + 4 * i + 1) = mem5 0 (100 + 4 * i + 1) ∧
          r.1 (100 + 4 * i + 2) = mem5 0 (100 + 4 * i + 2) :=
  ⟨⟨by decide, by decide, by decide, by decide⟩, by decide,
    channel_isolation (mem5 0) 100 200 0 5 (by decide) (by decide) (by decide) (by decide)⟩

/-- Witness of C4 on the five-pixel scenario, whose buffers are disjoint. -/
theorem blend_idempotent_witness :
    ((5 : Nat) < 2 ^ 31 ∧ (200 : Int) ≠ 0 ∧ Mapped (mem5 0) 100 (4 * 5) ∧
        Mapped (mem5 0) (200 - 2) (4 * 5) ∧ BuffersDisjoint 100 200 5 ∧ Separate 100 200 5) ∧
      ∃ r1, alpha_and_stencil_blend (mem5 0) 100 200 0 (5 : Nat) = .ok r1 ∧
        ∃ r2, alpha_and_stencil_blend r1.1 100 200 0 (5 : Nat) = .ok r2 ∧ r2.1 = r1.1 :=
  ⟨⟨by decide, by decide, by decide, by decide, by decide, by decide⟩,
    blend_idempotent (mem5 0) 100 200 0 5 (by decide) (by decide) (by decide) (by decide)
      (by decide)⟩

/-- Witness of C6 on the five-pixel scenario. -/
theorem blend_refines_byte_loop_witness :
    ((5 : Nat) < 2 ^ 31 ∧ (200 : Int) ≠ 0 ∧ Mapped (mem5 0) 100 (4 * 5) ∧
        Mapped (mem5 0) (200 - 2) (4 * 5)) ∧
      ∃ m', blend_bytes (mem5 0) 100 200 5 = .ok m' ∧
        ∃ t, alpha_and_stencil_blend (mem5 0) 100 200 0 (5 : Nat) = .ok (m', t) :=
  ⟨⟨by decide, by decide, by decide, by decide⟩,
    blend_refines_byte_loop (mem5 0) 100 200 0 5 (by decide) (by decide) (by decide)
      (by decide)⟩

/-- C5, the stencil argument has no effect.  Take two memories that agree on
the color buffer and, when the opacity source is non-null, on the opacity
region the kernel reads, and differ arbitrarily elsewhere (so in any stencil
buffer), and take any two stencil pointers, null or not.
The two calls end alike: both trap in the same way, or both return, with the
same bytes in the color buffer and the same access log. -/
theorem stencil_no_effect (m1 m2 : Memory) (color alpha s1 s2 : Int) (n : Nat)
    (hn : n < 2 ^ 31)
    (hc : ∀ x, color ≤ x ∧ x < color + 4 * n → m1 x = m2 x)
    (hs : alpha ≠ 0 → ∀ x, alpha - 2 ≤ x ∧ x < alpha - 2 + 4 * n → m1 x = m2 x) :
    SameOutcome (fun x => color ≤ x ∧ x < color + 4 * n)
      (alpha_and_stencil_blend m1 color alpha s1 n)
      (alpha_and_stencil_blend m2 color alpha s2 n) := by
  unfold alpha_and_stencil_blend
  rw [blend_unrolled_eq_single_loop Unroll (by decide) (by decide) m1 color alpha s1 n hn,
    blend_unrolled_eq_single_loop Unroll (by decide) (by decide) m2 color alpha s2 n hn]
  unfold blend_single_loop
  by_cases ha : alpha ≠ 0
  · rw [if_pos ha, if_pos ha]
    apply sameOutcome_mono
      (fun x => (color ≤ x ∧ x < color + 4 * n) ∨ (alpha - 2 ≤ x ∧ x < alpha - 2 + 4 * n))
    · exact fun x hx => Or.inl hx
    · exact single_loop_congr _ color alpha n 0 m1 m2 []
        (fun x hx => hx.elim (hc x) (hs ha x))
        (fun j _ h2 k hk => Or.inl (by omega)) (fun j _ h2 k hk => Or.inr (by omega))
  · rw [if_neg ha, if_neg ha]
    exact ⟨hc, rfl⟩

/-- Witness of C5: a null stencil and a stencil buffer of bytes `0`, against a
stencil buffer of bytes `255` at address 300. -/
theorem stencil_no_effect_witness :
    ((5 : Nat) < 2 ^ 31 ∧ mem5 0 300 ≠ mem5 255 300) ∧
      SameOutcome (fun x => (100 : Int) ≤ x ∧ x < 100 + 4 * (5 : Nat))
        (alpha_and_stencil_blend (mem5 0) 100 200 0 (5 : Nat))
        (alpha_and_stencil_blend (mem5 255) 100 200 300 (5 : Nat)) :=
  ⟨⟨by decide, by decide⟩,
    stencil_no_effect (mem5 0) (mem5 255) 100 200 0 300 5 (by decide)
      (fun x hx => by
        have h1 : 100 ≤ x ∧ x < 120 := by omega
        simp only [mem5, h1, and_self, if_true])
      (fun _ x hx => by
        have h1 : ¬ (100 ≤ x ∧ x < 120) := by omega
        have h2 : 198 ≤ x ∧ x < 220 := by omega
        simp only [mem5, h1, h2, and_self, if_true, if_false])⟩

/-- C7 as amended: for every unroll factor `U > 0` whose fourfold is a value
of `size_t`, in particular for the `Unroll = 4` of the source, every memory,
all pointers and every pixel count `n` (an `int`, so below `2^31`), the bulk
loop followed by the tail loop ends exactly as the single loop that performs
the masked word combine once per pixel for `i = 0 .. n-1`: same trap, or same
final memory and same access log. -/
theorem two_phase_eq_single_loop (U : Nat) (hU : 0 < U) (hU4 : 4 * U < SIZE_MOD)
    (m : Memory) (color alpha stencil : Int) (n : Nat) (hn : n < 2 ^ 31) :
    blend_unrolled U m color alpha stencil n = blend_single_loop m color alpha n ∧
      alpha_and_stencil_blend m color alpha stencil n = blend_single_loop m color alpha n :=
  ⟨blend_unrolled_eq_single_loop U hU hU4 m color alpha stencil n hn,
    blend_unrolled_eq_single_loop Unroll (by decide) (by decide) m color alpha stencil n hn⟩

/-- Witness of C7 as amended: unroll factor 3 on the seventeen-pixel scenario.
With `PixelsAtOnce = 12` the bulk loop runs one iteration and leaves five
pixels to the tail loop; with the `Unroll = 4` of the source it runs one
iteration and leaves one pixel; both runs return. -/
theorem two_phase_eq_single_loop_witness :
    ((0 : Nat) < 3 ∧ 4 * 3 < SIZE_MOD ∧ (17 : Nat) < 2 ^ 31) ∧
      ((bulk_loop_count 3 17 17 (entry_state mem17 1000 2000 0)).toOption.map
          (fun r => (r.1, r.2.1)) = some (1, 5)) ∧
      ((bulk_loop_count Unroll 17 17 (entry_state mem17 1000 2000 0)).toOption.map
          (fun r => (r.1, r.2.1)) = some (1, 1)) ∧
      ((blend_unrolled 3 mem17 1000 2000 0 (17 : Nat)).toOption.map
          (fun r => dump r.1 1064 4)
        = some [some 7, some 7, some 7, some 160]) ∧
      (blend_unrolled 3 mem17 1000 2000 0 (17 : Nat) = blend_single_loop mem17 1000 2000 17 ∧
        alpha_and_stencil_blend mem17 1000 2000 0 (17 : Nat)
          = blend_single_loop mem17 1000 2000 17) :=
  ⟨⟨by decide, by decide, by decide⟩, by decide, by decide, by decide,
    two_phase_eq_single_loop 3 (by decide) (by decide) mem17 1000 2000 0 17 (by decide)⟩

/-- Counterexample to C7 as stated: with the positive unroll factor `2^30` the
`size_t` product `4 * Unroll` is `0`, the bulk loop is entered with one pixel
remaining and runs past the buffers, so the call traps, while the single loop
over the one pixel returns. -/
theorem unroll_any_positive_counterexample :
    (0 : Nat) < 1073741824 ∧ (1 : Nat) < 2 ^ 31 ∧ PixelsAtOnce 1073741824 = 0 ∧
      (blend_unrolled 1073741824 mem1 16 32 0 (1 : Nat)).toOption.isSome = false ∧
      (blend_single_loop mem1 16 32 1).toOption.map (fun r => dump r.1 16 4)
        = some [some 10, some 20, some 30, some 200] ∧
      blend_unrolled 1073741824 mem1 16 32 0 (1 : Nat) ≠ blend_single_loop mem1 16 32 1 := by
  refine ⟨by decide, by decide, by decide, by decide, by decide, ?_⟩
  intro h
  have h2 := congrArg (fun r => r.toOption.isSome) h
  revert h2
  decide

/-- C8, access bounds.  For every pixel count `n` (an `int`, so below `2^31`):
every byte access of a run that returns is in bounds, a read of the opacity
source at an offset in `[-2, 4n - 2)` from `alpha` and a read or write of the
color buffer at an offset in `[0, 4n)` from `color`; and when the color buffer
has `4n` mapped bytes, the opacity source has `4n` mapped bytes and the two
bytes before it are mapped, the run returns: no access faults. -/
theorem access_bounds (m : Memory) (color alpha stencil : Int) (n : Nat) (hn : n < 2 ^ 31) :
    (∀ r, alpha_and_stencil_blend m color alpha stencil n = .ok r →
        ∀ acc ∈ r.2, InBounds color alpha n acc) ∧
      (Mapped m color (4 * n) → Mapped m alpha (4 * n) → Mapped m (alpha - 2) 2 →
        ∃ r, alpha_and_stencil_blend m color alpha stencil n = .ok r) := by
  constructor
  · intro r hr acc hacc
    rcases blend_trace m color alpha stencil n hn r hr with h | h
    · rw [h] at hacc; simp at hacc
    · rw [h] at hacc
      exact pixel_trace_inBounds color alpha n 0 n (by omega) acc hacc
  · intro hc hs hp
    by_cases ha : alpha = 0
    · subst ha; exact ⟨_, rfl⟩
    · have hs' : Mapped m (alpha - 2) (4 * n) := by
        intro k hk
        by_cases h2 : k < 2
        · exact hp k h2
        · have := hs (k - 2) (by omega)
          have e : alpha + ((k - 2 : Nat) : Int) = alpha - 2 + (k : Int) := by omega
          rw [e] at this; exact this
      obtain ⟨m', _, hr⟩ := blend_mapped m color alpha stencil n hn ha hc hs'
      exact ⟨_, hr⟩

/-- Witness of C8 on the five-pixel scenario: the run returns and its sixty
byte accesses are in bounds. -/
theorem access_bounds_witness :
    (5 : Nat) < 2 ^ 31 ∧
      (Mapped (mem5 0) 100 (4 * 5) ∧ Mapped (mem5 0) 200 (4 * 5) ∧ Mapped (mem5 0) (200 - 2) 2) ∧
      ((alpha_and_stencil_blend (mem5 0) 100 200 0 (5 : Nat)).toOption.map
        (fun r => r.2.length)) = some 60 ∧
      ((∀ r, alpha_and_stencil_blend (mem5 0) 100 200 0 (5 : Nat) = .ok r →
          ∀ acc ∈ r.2, InBounds 100 200 5 acc) ∧
        (Mapped (mem5 0) 100 (4 * 5) → Mapped (mem5 0) 200 (4 * 5) →
          Mapped (mem5 0) (200 - 2) 2 →
          ∃ r, alpha_and_stencil_blend (mem5 0) 100 200 0 (5 : Nat) = .ok r)) :=
  ⟨by decide, ⟨by decide, by decide, by decide⟩, by decide,
    access_bounds (mem5 0) 100 200 0 5 (by decide)⟩

/-- C9, only the green bytes of the opacity source are consumed.  Take two
memories with the same color buffer and two non-null opacity sources, one in
each, that have the same green byte for every pixel `i < n` (all other opacity
bytes and the two bytes before each source are arbitrary), neither of which
makes the kernel read an alpha byte it has already written.  Both calls return
and leave the same bytes in the color buffer. -/
theorem only_green_consumed (m1 m2 : Memory) (color a1 a2 s1 s2 : Int) (n : Nat)
    (hn : n < 2 ^ 31) (h1 : a1 ≠ 0) (h2 : a2 ≠ 0) (hc : Mapped m1 color (4 * n))
    (hs1 : Mapped m1 (a1 - 2) (4 * n)) (hs2 : Mapped m2 (a2 - 2) (4 * n))
    (hx1 : NoClobber color a1 n) (hx2 : NoClobber color a2 n)
    (hcol : ∀ k : Nat, k < 4 * n → m1 (color + k) = m2 (color + k))
    (hg : ∀ i : Nat, i < n → m1 (a1 + 4 * i + 1) = m2 (a2 + 4 * i + 1)) :
    ∃ r1 r2, alpha_and_stencil_blend m1 color a1 s1 n = .ok r1 ∧
      alpha_and_stencil_blend m2 color a2 s2 n = .ok r2 ∧
      ∀ k : Nat, k < 4 * n → r1.1 (color + k) = r2.1 (color + k) := by
  obtain ⟨m1', hb1, hr1⟩ := blend_mapped m1 color a1 s1 n hn h1 hc hs1
  obtain ⟨m2', hb2, hr2⟩ := blend_mapped m2 color a2 s2 n hn h2
    (fun k hk => by rw [← hcol k hk]; exact hc k hk) hs2
  refine ⟨_, _, hr1, hr2, fun k hk => ?_⟩
  show m1' (color + k) = m2' (color + k)
  by_cases h : ∃ j : Nat, j < n ∧ color + (k : Int) = color + 4 * j + 3
  · obtain ⟨j, hj, e⟩ := h
    rw [e, blend_bytes_alpha m1 m1' color a1 n hx1 hb1 j hj,
      blend_bytes_alpha m2 m2' color a2 n hx2 hb2 j hj]
    exact hg j hj
  · rw [blend_bytes_frame m1 m1' color a1 n hb1 _ (fun j hj hxj => h ⟨j, hj, hxj⟩),
      blend_bytes_frame m2 m2' color a2 n hb2 _ (fun j hj hxj => h ⟨j, hj, hxj⟩)]
    exact hcol k hk

/-- Witness of C9: the opacity source at 200 (other bytes `0`) against the one
at 400 (other bytes, and the two bytes before it, `9`). -/
theorem only_green_consumed_witness :
    ((5 : Nat) < 2 ^ 31 ∧ (200 : Int) ≠ 0 ∧ (400 : Int) ≠ 0 ∧ Mapped (mem5b 9) 100 (4 * 5) ∧
        Mapped (mem5b 9) (200 - 2) (4 * 5) ∧ Mapped (mem5b 9) (400 - 2) (4 * 5) ∧
        NoClobber 100 200 5 ∧ NoClobber 100 400 5 ∧
        (∀ k : Nat, k < 4 * 5 → mem5b 9 (100 + k) = mem5b 9 (100 + k)) ∧
        (∀ i : Nat, i < 5 → mem5b 9 (200 + 4 * i + 1) = mem5b 9 (400 + 4 * i + 1)) ∧
        mem5b 9 198 ≠ mem5b 9 398 ∧ mem5b 9 200 ≠ mem5b 9 400) ∧
      ∃ r1 r2, alpha_and_stencil_blend (mem5b 9) 100 200 0 (5 : Nat) = .ok r1 ∧
        alpha_and_stencil_blend (mem5b 9) 100 400 0 (5 : Nat) = .ok r2 ∧
        ∀ k : Nat, k < 4 * 5 → r1.1 (100 + k) = r2.1 (100 + k) :=
  ⟨⟨by decide, by decide, by decide, by decide, by decide, by decide, by decide, by decide,
      by decide, by decide, by decide, by decide⟩,
    only_green_consumed (mem5b 9) (mem5b 9) 100 200 400 0 0 5 (by decide) (by decide)
      (by decide) (by decide) (by decide) (by decide) (by decide) (by decide) (by decide)
      (by decide)⟩

/-- C10, back-shift alignment.  For every memory, opacity base `alpha` and
pixel index `i` for which the four bytes from offset `4i - 2` are mapped, the
little-endian word read there has the green byte `alpha[4i+1]` of pixel `i` as
its most significant byte: `word & 0xFF000000 = alpha[4i+1] * 2^24`. -/
theorem back_shift_alignment (m : Memory) (alpha : Int) (i : Nat)
    (h : ∀ k : Nat, k < 4 → (m (alpha - 2 + 4 * i + k)).isSome = true) :
    ∃ w g, load32 m (alpha - 2 + 4 * i) = some w ∧ m (alpha + 4 * i + 1) = some g ∧
      w &&& alphaMask = g.val * 2 ^ 24 ∧ w / 2 ^ 24 = g.val := by
  obtain ⟨s0, g0⟩ := isSome_get (h 0 (by omega))
  obtain ⟨s1, g1⟩ := isSome_get (h 1 (by omega))
  obtain ⟨s2, g2⟩ := isSome_get (h 2 (by omega))
  obtain ⟨s3, g3⟩ := isSome_get (h 3 (by omega))
  simp only [Nat.cast_ofNat, Nat.cast_zero, Nat.cast_one, add_zero] at g0 g1 g2 g3
  have e : alpha + 4 * (i : Int) + 1 = alpha - 2 + 4 * (i : Int) + 3 := by ring
  refine ⟨word_of s0 s1 s2 s3, s3, ?_, by rw [e]; exact g3, ?_, ?_⟩
  · simp only [load32, g0, g1, g2, g3]
  · rw [word_of_alphaMask]; ring
  · unfold word_of; omega

/-- Witness of C10: pixel 3 of the seventeen-pixel scenario, green byte 30. -/
theorem back_shift_alignment_witness :
    (∀ k : Nat, k < 4 → (mem17 (2000 - 2 + 4 * (3 : Nat) + k)).isSome = true) ∧
      mem17 (2000 + 4 * (3 : Nat) + 1) = some 30 ∧
      ∃ w g, load32 mem17 (2000 - 2 + 4 * (3 : Nat)) = some w ∧
        mem17 (2000 + 4 * (3 : Nat) + 1) = some g ∧
        w &&& alphaMask = g.val * 2 ^ 24 ∧ w / 2 ^ 24 = g.val :=
  ⟨by decide, by decide, back_shift_alignment mem17 2000 3 (by decide)⟩

/-! ## The stored word -/

theorem word_of_lt (b0 b1 b2 b3 : Byte) : word_of b0 b1 b2 b3 < 2 ^ 32 := by
  unfold word_of; omega

theorem load32_lt (m : Memory) (p : Int) (w : Nat) (h : load32 m p = some w) : w < 2 ^ 32 := by
  unfold load32 at h
  rcases h0 : m p with _ | b0
  · simp [h0] at h
  rcases h1 : m (p + 1) with _ | b1
  · simp [h0, h1] at h
  rcases h2 : m (p + 2) with _ | b2
  · simp [h0, h1, h2] at h
  rcases h3 : m (p + 3) with _ | b3
  · simp [h0, h1, h2, h3] at h
  simp only [h0, h1, h2, h3, Option.some.injEq] at h
  rw [← h]; exact word_of_lt b0 b1 b2 b3

theorem word_of_bytes (c : Nat) (hc : c < 2 ^ 32) :
    c = word_of (byte_of c) (byte_of (c / 256)) (byte_of (c / 65536))
      (byte_of (c / 16777216)) := by
  simp only [word_of, byte_of]; omega

theorem combine_ok (k k' : Kernel) (h : combine k = .ok k') :
    ∃ cw sw, load32 k.mem k.colorSrc = some cw ∧ load32 k.mem k.alphaSrc = some sw ∧
      store32 k.mem k.colorDst ((cw &&& rgbMask) ||| (sw &&& alphaMask)) = some k'.mem := by
  unfold combine at h
  rcases hl : load32 k.mem k.colorSrc with _ | cw
  · simp [hl] at h
  rcases hl2 : load32 k.mem k.alphaSrc with _ | sw
  · simp [hl, hl2] at h
  rcases hst : store32 k.mem k.colorDst ((cw &&& rgbMask) ||| (sw &&& alphaMask)) with _ | m
  · simp [hl, hl2, hst] at h
  · simp only [hl, hl2, hst, Except.ok.injEq] at h
    exact ⟨cw, sw, rfl, rfl, by rw [← h]; exact hst⟩

/-- C11, the masked word combine.  For all 32-bit words `c` and `s` the word
`(c & 0x00FFFFFF) | (s & 0xFF000000)` has the little-endian bytes
`[c0, c1, c2, s3]`: the mask `0x00FFFFFF` keeps the three low bytes of `c`, the
mask `0xFF000000` keeps exactly the top byte of `s`.  And every combine
statement of the kernel that completes has read two 32-bit words `cw` and `sw`
through `colorSrc` and `alphaSrc` and has stored the word
`(cw & rgbMask) | (sw & alphaMask)` through `colorDst`. -/
theorem masked_word_combine (c s : Nat) (hc : c < 2 ^ 32) (hs : s < 2 ^ 32) :
    ((c &&& rgbMask) ||| (s &&& alphaMask)
        = word_of (byte_of c) (byte_of (c / 256)) (byte_of (c / 65536))
            (byte_of (s / 16777216))) ∧
      c &&& rgbMask = word_of (byte_of c) (byte_of (c / 256)) (byte_of (c / 65536)) 0 ∧
      s &&& alphaMask = word_of 0 0 0 (byte_of (s / 16777216)) ∧
      ∀ k k', combine k = .ok k' →
        ∃ cw sw, cw < 2 ^ 32 ∧ sw < 2 ^ 32 ∧ load32 k.mem k.colorSrc = some cw ∧
          load32 k.mem k.alphaSrc = some sw ∧
          store32 k.mem k.colorDst ((cw &&& rgbMask) ||| (sw &&& alphaMask)) = some k'.mem := by
  refine ⟨?_, ?_, ?_, ?_⟩
  · conv_lhs => rw [word_of_bytes c hc, word_of_bytes s hs]
    exact combine_word _ _ _ _ _ _ _ _
  · conv_lhs => rw [word_of_bytes c hc]
    rw [word_of_rgbMask]; simp [word_of]
  · conv_lhs => rw [word_of_bytes s hs]
    rw [word_of_alphaMask]; simp [word_of]
  · intro k k' h
    obtain ⟨cw, sw, h1, h2, h3⟩ := combine_ok k k' h
    exact ⟨cw, sw, load32_lt _ _ _ h1, load32_lt _ _ _ h2, h1, h2, h3⟩

/-- Witness of C11: the words `0x04030201` and `0xC8000000`, and the first
combine statement of the five-pixel scenario. -/
theorem masked_word_combine_witness :
    ((0x04030201 : Nat) < 2 ^ 32 ∧ (0xC8000000 : Nat) < 2 ^ 32) ∧
      (∃ k', combine (entry_state (mem5 0) 100 200 0) = .ok k') ∧
      (((0x04030201 &&& rgbMask) ||| (0xC8000000 &&& alphaMask)
          = word_of (byte_of 0x04030201) (byte_of (0x04030201 / 256))
              (byte_of (0x04030201 / 65536)) (byte_of (0xC8000000 / 16777216))) ∧
        0x04030201 &&& rgbMask = word_of (byte_of 0x04030201) (byte_of (0x04030201 / 256))
          (byte_of (0x04030201 / 65536)) 0 ∧
        0xC8000000 &&& alphaMask = word_of 0 0 0 (byte_of (0xC8000000 / 16777216)) ∧
        ∀ k k', combine k = .ok k' →
          ∃ cw sw, cw < 2 ^ 32 ∧ sw < 2 ^ 32 ∧ load32 k.mem k.colorSrc = some cw ∧
            load32 k.mem k.alphaSrc = some sw ∧
            store32 k.mem k.colorDst ((cw &&& rgbMask) ||| (sw &&& alphaMask))
              = some k'.mem) :=
  ⟨⟨by decide, by decide⟩, ⟨_, rfl⟩,
    masked_word_combine 0x04030201 0xC8000000 (by decide) (by decide)⟩

/-! ## Counting the iterations of the bulk loop -/

theorem bulk_loop_erase (U fuel remaining : Nat) (k : Kernel) :
    bulk_loop U fuel remaining k
      = bulk_loop_count U fuel remaining k >>= fun r => .ok r.2 := by
  induction fuel generalizing remaining k with
  | zero =>
    unfold bulk_loop bulk_loop_count
    by_cases h : PixelsAtOnce U ≤ remaining
    · rw [if_pos h, if_pos h]; rfl
    · rw [if_neg h, if_neg h]; rfl
  | succ fuel ih =>
    unfold bulk_loop bulk_loop_count
    by_cases h : PixelsAtOnce U ≤ remaining
    · rw [if_pos h, if_pos h, bind_assoc]
      congr 1; funext k'
      rw [ih, bind_assoc]
      congr 1
    · rw [if_neg h, if_neg h]; rfl

theorem bulk_loop_count_at_pixel (U : Nat) (hU : 0 < U) (hU4 : 4 * U < SIZE_MOD)
    (c a ad st : Int) (fuel remaining i : Nat) (hf : remaining ≤ fuel)
    (s : Memory × List Access) :
    bulk_loop_count U fuel remaining (at_pixel c a ad st i s)
      = single_loop c a (4 * U * (remaining / (4 * U))) i s >>= fun s' =>
          .ok (remaining / (4 * U), remaining % (4 * U),
            at_pixel c a ad st (i + 4 * U * (remaining / (4 * U))) s') := by
  have hP : PixelsAtOnce U = 4 * U := by unfold PixelsAtOnce; exact Nat.mod_eq_of_lt hU4
  have hpos : 0 < 4 * U := by omega
  induction fuel generalizing remaining i s with
  | zero =>
    have h0 : remaining = 0 := by omega
    subst h0
    have : ¬ PixelsAtOnce U ≤ 0 := by omega
    simp [bulk_loop_count, this, single_loop]
  | succ fuel ih =>
    unfold bulk_loop_count
    by_cases h : PixelsAtOnce U ≤ remaining
    · rw [if_pos h, for_unrolling_at_pixel, bind_assoc]
      obtain ⟨r, rfl⟩ : ∃ r, remaining = r + 4 * U := ⟨remaining - 4 * U, by omega⟩
      have e1 : (r + 4 * U) / (4 * U) = r / (4 * U) + 1 := Nat.add_div_right r hpos
      have e2 : (r + 4 * U) % (4 * U) = r % (4 * U) := Nat.add_mod_right r (4 * U)
      have e3 : r + 4 * U - PixelsAtOnce U = r := by omega
      have e4 : 4 * U * (r / (4 * U) + 1) = 4 * U + 4 * U * (r / (4 * U)) := by ring
      rw [e1, e2, e3, e4, single_loop_add, bind_assoc]
      congr 1; funext s'
      rw [ok_bind, ih r (i + 4 * U) (by omega) s', bind_assoc]
      congr 1; funext s''
      rw [ok_bind, Nat.add_assoc]
    · rw [if_neg h]
      have hlt : remaining < 4 * U := by omega
      rw [Nat.div_eq_of_lt hlt, Nat.mod_eq_of_lt hlt]
      simp [single_loop]

theorem pixel_trace_add (c a : Int) (n1 n2 i : Nat) :
    pixel_trace c a (n1 + n2) i = pixel_trace c a n1 i ++ pixel_trace c a n2 (i + n1) := by
  induction n1 generalizing i with
  | zero => simp [pixel_trace]
  | succ n1 ih =>
    have e : i + 1 + n1 = i + (n1 + 1) := by omega
    rw [Nat.add_right_comm, pixel_trace, pixel_trace, ih, e, List.append_assoc]

theorem stores_append (t1 t2 : List Access) : stores (t1 ++ t2) = stores t1 ++ stores t2 := by
  simp [stores]

theorem stores_pixel_access (c a : Int) (i : Nat) :
    stores (pixel_access c a i) = [c + 4 * i, c + 4 * i + 1, c + 4 * i + 2, c + 4 * i + 3] := by
  simp [stores, pixel_access, word_access, List.filter]

theorem stores_pixel_trace (c a : Int) (count i : Nat) :
    stores (pixel_trace c a count i)
      = (List.range' (4 * i) (4 * count)).map fun k : Nat => c + (k : Int) := by
  induction count generalizing i with
  | zero => simp [pixel_trace, stores]
  | succ count ih =>
    have hr : List.range' (4 * i) (4 * (count + 1))
        = List.range' (4 * i) 4 ++ List.range' (4 * (i + 1)) (4 * count) := by
      have h := List.range'_append_1 (4 * i) 4 (4 * count)
      have e : 4 * (count + 1) = 4 * count + 4 := by omega
      have e' : 4 * (i + 1) = 4 * i + 4 := by omega
      rw [e, e', h]
    have h4 : List.range' (4 * i) 4 = [4 * i, 4 * i + 1, 4 * i + 2, 4 * i + 3] := by
      simp [List.range']
    rw [pixel_trace, stores_append, stores_pixel_access, ih, hr, List.map_append, h4]
    simp
    omega

/-! ## Termination -/

theorem combine_pixel_ne_fuel (c a : Int) (i : Nat) (s : Memory × List Access) :
    combine_pixel c a i s ≠ .error .fuel := by
  unfold combine_pixel
  rcases hl : load32 s.1 (c + 4 * (i : Int)) with _ | cw
  · simp
  rcases hl2 : load32 s.1 (a - 2 + 4 * (i : Int)) with _ | aw
  · simp
  rcases hst : store32 s.1 (c + 4 * (i : Int)) ((cw &&& rgbMask) ||| (aw &&& alphaMask))
    with _ | m
  · simp [hst]
  · simp [hst]

theorem single_loop_ne_fuel (c a : Int) (count i : Nat) (s : Memory × List Access) :
    single_loop c a count i s ≠ .error .fuel := by
  induction count generalizing i s with
  | zero => simp [single_loop]
  | succ count ih =>
    rw [single_loop]
    rcases h : combine_pixel c a i s with e | s1
    · rw [error_bind]
      intro h2
      exact combine_pixel_ne_fuel c a i s (h.trans h2)
    · rw [ok_bind]; exact ih (i + 1) s1

theorem blend_eq_single_loop_size (m : Memory) (c a st : Int) (np : Int) :
    alpha_and_stencil_blend m c a st np = blend_single_loop m c a (to_size_t np) := by
  unfold alpha_and_stencil_blend blend_unrolled blend_single_loop
  by_cases ha : a ≠ 0
  · rw [if_pos ha, if_pos ha]
    have h := bulk_tail_at_pixel Unroll (by decide) (by decide) c a (a - 2) st (to_size_t np)
      (to_size_t np) 0 (le_refl _) (m, [])
    have e : at_pixel c a (a - 2) st 0 (m, []) =
        { mem := m, colorSrc := c, colorDst := c, alphaSrc := a - 2, alphaDst := a - 2,
          stencil32 := st, trace := [] } := by
      simp [at_pixel]
    rw [e] at h
    simp only []
    rw [← bind_assoc, h, bind_assoc]
    cases single_loop c a (to_size_t np) 0 (m, []) <;> rfl
  · rw [if_neg ha, if_neg ha]

theorem blend_ne_fuel (m : Memory) (c a st : Int) (np : Int) :
    alpha_and_stencil_blend m c a st np ≠ .error .fuel := by
  rw [blend_eq_single_loop_size]
  unfold blend_single_loop
  by_cases ha : a ≠ 0
  · rw [if_pos ha]; exact single_loop_ne_fuel c a _ 0 _
  · rw [if_neg ha]; simp

theorem entry_state_at_pixel (m : Memory) (c a st : Int) :
    entry_state m c a st = at_pixel c a (a - 2) st 0 (m, []) := by
  simp [entry_state, at_pixel]

theorem for_unrolling_four (k : Kernel) :
    for_unrolling Unroll k = combine4 k >>= combine4 >>= combine4 >>= combine4 := by
  simp only [Unroll, for_unrolling, bind_assoc]
  congr 1; funext k1; congr 1; funext k2; congr 1; funext k3
  cases combine4 k3 <;> rfl

/-- C12, loop partition and termination.  The `for` loop is four times four
combine statements, sixteen consecutive pixels.  For a pixel count `n` (an
`int`, so below `2^31`), a non-null opacity source and mapped buffers, the bulk
loop runs exactly `n / 16` iterations and leaves `remaining = n mod 16 < 16`,
having combined the pixels `0 .. 16 * (n / 16) - 1`; the tail loop then
combines the `n mod 16` pixels from `16 * (n / 16)` on; the call returns the
state the tail loop leaves; its access log is that of the pixels `0 .. n-1` in
increasing order, and the bytes written are the `4n` bytes of the color buffer,
each once, in increasing order.  And no run, whatever the memory and the
arguments, exhausts the iteration bound of the model: both loops terminate. -/
theorem loop_partition (m : Memory) (color alpha stencil : Int) (n : Nat)
    (hn : n < 2 ^ 31) (ha : alpha ≠ 0) (hc : Mapped m color (4 * n))
    (hs : Mapped m (alpha - 2) (4 * n)) :
    (∀ k, for_unrolling Unroll k = combine4 k >>= combine4 >>= combine4 >>= combine4) ∧
      (∀ (ad st : Int) (i : Nat) (s : Memory × List Access),
        for_unrolling Unroll (at_pixel color alpha ad st i s)
          = single_loop color alpha 16 i s >>= fun s' =>
              .ok (at_pixel color alpha ad st (i + 16) s')) ∧
      (∃ kb kt,
        bulk_loop_count Unroll (to_size_t n) (to_size_t n) (entry_state m color alpha stencil)
          = .ok (n / 16, n % 16, kb) ∧
        bulk_loop Unroll (to_size_t n) (to_size_t n) (entry_state m color alpha stencil)
          = .ok (n % 16, kb) ∧
        kb.trace = pixel_trace color alpha (16 * (n / 16)) 0 ∧
        n % 16 < 16 ∧
        tail_loop (n % 16) kb = .ok kt ∧
        kt.trace = kb.trace ++ pixel_trace color alpha (n % 16) (16 * (n / 16)) ∧
        alpha_and_stencil_blend m color alpha stencil n = .ok (kt.mem, kt.trace) ∧
        kt.trace = pixel_trace color alpha n 0 ∧
        stores kt.trace = (List.range (4 * n)).map fun k : Nat => color + (k : Int)) ∧
      ∀ (m' : Memory) (c' a' st' : Int) (np : Int),
        alpha_and_stencil_blend m' c' a' st' np ≠ .error .fuel := by
  refine ⟨for_unrolling_four, fun ad st i s => for_unrolling_at_pixel color alpha ad st 4 i s,
    ?_, blend_ne_fuel⟩
  have e16 : 4 * Unroll = 16 := rfl
  have hsplit : n = 16 * (n / 16) + n % 16 := (Nat.div_add_mod n 16).symm
  -- the bulk loop
  obtain ⟨mb, hbb, hlb⟩ := single_loop_mapped color alpha (16 * (n / 16)) 0 m []
    (fun j _ h2 k hk => mapped_pixel m color n hc j (by omega) k hk)
    (fun j _ h2 k hk => mapped_pixel m (alpha - 2) n hs j (by omega) k hk)
  have hcount := bulk_loop_count_at_pixel Unroll (by decide) (by decide) color alpha
    (alpha - 2) stencil n n 0 (le_refl n) (m, [])
  rw [e16, hlb, ok_bind, ← entry_state_at_pixel] at hcount
  simp only [Nat.zero_add, List.nil_append] at hcount hlb
  have hbulk := bulk_loop_erase Unroll n n (entry_state m color alpha stencil)
  rw [hcount, ok_bind] at hbulk
  -- the tail loop
  have hdom := (byte_loop_frame color alpha (16 * (n / 16)) 0 m mb hbb).1
  obtain ⟨mt, _, hlt⟩ := single_loop_mapped color alpha (n % 16) (16 * (n / 16)) mb
    (pixel_trace color alpha (16 * (n / 16)) 0)
    (fun j _ h2 k hk => by rw [hdom]; exact mapped_pixel m color n hc j (by omega) k hk)
    (fun j _ h2 k hk => by rw [hdom]; exact mapped_pixel m (alpha - 2) n hs j (by omega) k hk)
  have htail := tail_loop_at_pixel color alpha (alpha - 2) stencil (n % 16)
    (16 * (n / 16)) (mb, pixel_trace color alpha (16 * (n / 16)) 0)
  rw [hlt, ok_bind] at htail
  have htrace : pixel_trace color alpha (16 * (n / 16)) 0
      ++ pixel_trace color alpha (n % 16) (16 * (n / 16)) = pixel_trace color alpha n 0 := by
    conv_rhs => rw [hsplit, pixel_trace_add]
    simp
  refine ⟨at_pixel color alpha (alpha - 2) stencil (16 * (n / 16))
      (mb, pixel_trace color alpha (16 * (n / 16)) 0),
    at_pixel color alpha (alpha - 2) stencil (16 * (n / 16) + n % 16)
      (mt, pixel_trace color alpha (16 * (n / 16)) 0
        ++ pixel_trace color alpha (n % 16) (16 * (n / 16))),
    ?_, ?_, rfl, Nat.mod_lt n (by decide), htail, rfl, ?_, htrace, ?_⟩
  · rw [to_size_t_cast n hn]; exact hcount
  · rw [to_size_t_cast n hn]; exact hbulk
  · unfold alpha_and_stencil_blend blend_unrolled
    rw [if_pos ha]
    simp only [to_size_t_cast n hn]
    have h := hbulk
    unfold entry_state at h
    rw [h, ok_bind]
    simp only []
    rw [htail, ok_bind]
  · show stores (pixel_trace color alpha (16 * (n / 16)) 0
      ++ pixel_trace color alpha (n % 16) (16 * (n / 16))) = _
    rw [htrace, stores_pixel_trace, List.range_eq_range']

/-- Witness of C12: seventeen pixels, one bulk iteration and one tail combine. -/
theorem loop_partition_witness :
    ((17 : Nat) < 2 ^ 31 ∧ (2000 : Int) ≠ 0 ∧ Mapped mem17 1000 (4 * 17) ∧
        Mapped mem17 (2000 - 2) (4 * 17)) ∧
      ((bulk_loop_count Unroll 17 17 (entry_state mem17 1000 2000 0)).toOption.map
          (fun r => (r.1, r.2.1)) = some (1, 1)) ∧
      ∃ kb kt,
        bulk_loop_count Unroll (to_size_t (17 : Nat)) (to_size_t (17 : Nat))
            (entry_state mem17 1000 2000 0) = .ok (17 / 16, 17 % 16, kb) ∧
        bulk_loop Unroll (to_size_t (17 : Nat)) (to_size_t (17 : Nat))
            (entry_state mem17 1000 2000 0) = .ok (17 % 16, kb) ∧
        kb.trace = pixel_trace 1000 2000 (16 * (17 / 16)) 0 ∧
        17 % 16 < 16 ∧
        tail_loop (17 % 16) kb = .ok kt ∧
        kt.trace = kb.trace ++ pixel_trace 1000 2000 (17 % 16) (16 * (17 / 16)) ∧
        alpha_and_stencil_blend mem17 1000 2000 0 (17 : Nat) = .ok (kt.mem, kt.trace) ∧
        kt.trace = pixel_trace 1000 2000 17 0 ∧
        stores kt.trace = (List.range (4 * 17)).map fun k : Nat => (1000 : Int) + (k : Int) :=
  ⟨⟨by decide, by decide, by decide, by decide⟩, by decide,
    (loop_partition mem17 1000 2000 0 17 (by decide) (by decide) (by decide)
      (by decide)).2.2.1⟩

/-! ## Frame, last writer, self-aliasing, fixed points -/

/-- C13, frame outside the first `n` pixels.  For a pixel count `n` (an `int`,
so below `2^31`), a color buffer with `4n` mapped bytes and an opacity source
that is null or has the `4n` bytes from `alpha - 2` mapped, the call returns a
memory with the same mapped addresses (every buffer keeps its length) in which
every byte outside the first `4n` bytes of the color buffer, so every byte of
the color buffer at an offset `>= 4n`, is unchanged; with `n = 0` the call
returns the memory it was given, whatever the opacity source. -/
theorem frame_outside_pixels (m : Memory) (color alpha stencil : Int) (n : Nat)
    (hn : n < 2 ^ 31) (hc : Mapped m color (4 * n))
    (hs : alpha ≠ 0 → Mapped m (alpha - 2) (4 * n)) :
    (∃ r, alpha_and_stencil_blend m color alpha stencil n = .ok r ∧
        (∀ x, (r.1 x).isSome = (m x).isSome) ∧
        (∀ x, ¬ (color ≤ x ∧ x < color + 4 * n) → r.1 x = m x) ∧
        ∀ k : Nat, 4 * n ≤ k → r.1 (color + k) = m (color + k)) ∧
      alpha_and_stencil_blend m color alpha stencil (0 : Nat) = .ok (m, []) := by
  constructor
  · by_cases ha : alpha = 0
    · subst ha
      exact ⟨(m, []), rfl, fun _ => rfl, fun _ _ => rfl, fun _ _ => rfl⟩
    · obtain ⟨m', hb, hr⟩ := blend_mapped m color alpha stencil n hn ha hc (hs ha)
      refine ⟨_, hr, blend_bytes_dom m m' color alpha n hb, fun x hx => ?_, fun k hk => ?_⟩
      · exact blend_bytes_frame m m' color alpha n hb x (fun j hj => by omega)
      · exact blend_bytes_frame m m' color alpha n hb _ (fun j hj => by omega)
  · by_cases ha : alpha = 0
    · subst ha; rfl
    · obtain ⟨m', hb, hr⟩ := blend_mapped m color alpha stencil 0 (by decide) ha
        (fun k hk => by omega) (fun k hk => by omega)
      rw [hr]
      simp only [blend_bytes, byte_loop, Except.ok.injEq] at hb
      rw [hb]; rfl

/-- Witness of C13: the five-pixel scenario; the stencil bytes at address 300
and the opacity bytes are outside the color buffer. -/
theorem frame_outside_pixels_witness :
    ((5 : Nat) < 2 ^ 31 ∧ Mapped (mem5 9) 100 (4 * 5) ∧
        ((200 : Int) ≠ 0 → Mapped (mem5 9) (200 - 2) (4 * 5))) ∧
      (∃ r, alpha_and_stencil_blend (mem5 9) 100 200 300 (5 : Nat) = .ok r ∧
          (∀ x, (r.1 x).isSome = (mem5 9 x).isSome) ∧
          (∀ x, ¬ ((100 : Int) ≤ x ∧ x < 100 + 4 * (5 : Nat)) → r.1 x = mem5 9 x) ∧
          ∀ k : Nat, 4 * 5 ≤ k → r.1 (100 + k) = mem5 9 (100 + k)) ∧
        alpha_and_stencil_blend (mem5 9) 100 200 300 (0 : Nat) = .ok (mem5 9, []) :=
  ⟨⟨by decide, by decide, fun _ => by decide⟩,
    frame_outside_pixels (mem5 9) 100 200 300 5 (by decide) (by decide) (fun _ => by decide)⟩

/-- C14, last writer wins.  Let the second opacity source `a2` have no green
byte that is an alpha byte of the color buffer (as when it is disjoint from
it).  Blending with any opacity source `a1` and then with `a2` leaves the
memory that blending with `a2` alone leaves.  And a memory `m'` that differs
from `m` only in the alpha bytes of the first `n` color pixels is blended with
`a2` to the same memory as `m`. -/
theorem last_writer_wins (m m' : Memory) (color a1 a2 stencil : Int) (n : Nat)
    (hn : n < 2 ^ 31) (h1 : a1 ≠ 0) (h2 : a2 ≠ 0) (hc : Mapped m color (4 * n))
    (hs1 : Mapped m (a1 - 2) (4 * n)) (hs2 : Mapped m (a2 - 2) (4 * n))
    (hx : Separate color a2 n) (hc' : Mapped m' color (4 * n))
    (hd : ∀ x, (∀ j : Nat, j < n → x ≠ color + 4 * j + 3) → m' x = m x) :
    ∃ r1 r12 r2 r',
      alpha_and_stencil_blend m color a1 stencil n = .ok r1 ∧
      alpha_and_stencil_blend r1.1 color a2 stencil n = .ok r12 ∧
      alpha_and_stencil_blend m color a2 stencil n = .ok r2 ∧
      alpha_and_stencil_blend m' color a2 stencil n = .ok r' ∧
      r12.1 = r2.1 ∧ r'.1 = r2.1 := by
  have hnc := noClobber_of_separate _ _ _ hx
  have hgreen : ∀ j : Nat, j < n → ∀ j' : Nat, j' < n →
      a2 + 4 * (j : Int) + 1 ≠ color + 4 * (j' : Int) + 3 := fun j hj j' hj' => hx j hj j' hj'
  obtain ⟨m1, hb1, hr1⟩ := blend_mapped m color a1 stencil n hn h1 hc hs1
  have hdom1 := blend_bytes_dom m m1 color a1 n hb1
  obtain ⟨m12, hb12, hr12⟩ := blend_mapped m1 color a2 stencil n hn h2
    (fun k hk => by rw [hdom1]; exact hc k hk) (fun k hk => by rw [hdom1]; exact hs2 k hk)
  obtain ⟨m2, hb2, hr2⟩ := blend_mapped m color a2 stencil n hn h2 hc hs2
  have hs2' : Mapped m' (a2 - 2) (4 * n) := by
    intro k hk
    by_cases h : ∃ j : Nat, j < n ∧ a2 - 2 + (k : Int) = color + 4 * j + 3
    · obtain ⟨j, hj, e⟩ := h
      rw [e]
      have := hc' (4 * j + 3) (by omega)
      have e2 : color + ((4 * j + 3 : Nat) : Int) = color + 4 * (j : Int) + 3 := by
        push_cast; ring
      rw [e2] at this; exact this
    · rw [hd _ (fun j hj hxj => h ⟨j, hj, hxj⟩)]; exact hs2 k hk
  obtain ⟨m3, hb3, hr3⟩ := blend_mapped m' color a2 stencil n hn h2 hc' hs2'
  refine ⟨_, _, _, _, hr1, hr12, hr2, hr3, ?_, ?_⟩
  · funext x
    show m12 x = m2 x
    by_cases h : ∃ j : Nat, j < n ∧ x = color + 4 * j + 3
    · obtain ⟨j, hj, rfl⟩ := h
      rw [blend_bytes_alpha m1 m12 color a2 n hnc hb12 j hj,
        blend_bytes_alpha m m2 color a2 n hnc hb2 j hj]
      exact blend_bytes_frame m m1 color a1 n hb1 _ (fun j' hj' => hgreen j hj j' hj')
    · rw [blend_bytes_frame m1 m12 color a2 n hb12 x (fun j hj hxj => h ⟨j, hj, hxj⟩),
        blend_bytes_frame m m2 color a2 n hb2 x (fun j hj hxj => h ⟨j, hj, hxj⟩)]
      exact blend_bytes_frame m m1 color a1 n hb1 x (fun j hj hxj => h ⟨j, hj, hxj⟩)
  · funext x
    show m3 x = m2 x
    by_cases h : ∃ j : Nat, j < n ∧ x = color + 4 * j + 3
    · obtain ⟨j, hj, rfl⟩ := h
      rw [blend_bytes_alpha m' m3 color a2 n hnc hb3 j hj,
        blend_bytes_alpha m m2 color a2 n hnc hb2 j hj]
      exact hd _ (fun j' hj' => hgreen j hj j' hj')
    · rw [blend_bytes_frame m' m3 color a2 n hb3 x (fun j hj hxj => h ⟨j, hj, hxj⟩),
        blend_bytes_frame m m2 color a2 n hb2 x (fun j hj hxj => h ⟨j, hj, hxj⟩)]
      exact hd x (fun j hj hxj => h ⟨j, hj, hxj⟩)

/-- Witness of C14: color alpha bytes `0` against `5`, first opacity source
with green `200` at address 200, second with green `77` at address 400; every
run ends with alpha bytes `77`. -/
theorem last_writer_wins_witness :
    ((5 : Nat) < 2 ^ 31 ∧ (200 : Int) ≠ 0 ∧ (400 : Int) ≠ 0 ∧ Mapped (mem5c 0) 100 (4 * 5) ∧
        Mapped (mem5c 0) (200 - 2) (4 * 5) ∧ Mapped (mem5c 0) (400 - 2) (4 * 5) ∧
        Separate 100 400 5 ∧ BuffersDisjoint 100 400 5 ∧ Mapped (mem5c 5) 100 (4 * 5) ∧
        mem5c 5 103 ≠ mem5c 0 103) ∧
      ((alpha_and_stencil_blend (mem5c 0) 100 400 0 (5 : Nat)).toOption.map
          (fun r => dump r.1 100 8)
        = some [some 10, some 10, some 10, some 77, some 10, some 10, some 10, some 77]) ∧
      ∃ r1 r12 r2 r',
        alpha_and_stencil_blend (mem5c 0) 100 200 0 (5 : Nat) = .ok r1 ∧
        alpha_and_stencil_blend r1.1 100 400 0 (5 : Nat) = .ok r12 ∧
        alpha_and_stencil_blend (mem5c 0) 100 400 0 (5 : Nat) = .ok r2 ∧
        alpha_and_stencil_blend (mem5c 5) 100 400 0 (5 : Nat) = .ok r' ∧
        r12.1 = r2.1 ∧ r'.1 = r2.1 :=
  ⟨⟨by decide, by decide, by decide, by decide, by decide, by decide, by decide, by decide,
      by decide, by decide⟩, by decide,
    last_writer_wins (mem5c 0) (mem5c 5) 100 200 400 0 5 (by decide) (by decide) (by decide)
      (by decide) (by decide) (by decide) (by decide) (by decide)
      (fun x h => by
        by_cases h1 : 100 ≤ x ∧ x < 120
        · have h3 : ¬ (x - 100) % 4 = 3 := fun h3 =>
            h ((x - 100) / 4).toNat (by omega) (by omega)
          simp only [mem5c, h1, h3, and_self, if_true, if_false]
        · simp only [mem5c, h1, if_false])⟩

/-- C15, exact self-aliasing.  When the opacity pointer is the color pointer,
with the `4n` bytes of the buffer and the `4n` bytes from two bytes before it
mapped, no green byte of the buffer is one of its alpha bytes, and the call
returns with the alpha byte of every pixel `i < n` equal to the green byte that
pixel had before the call and with its R, G and B bytes unchanged. -/
theorem self_aliasing (m : Memory) (color stencil : Int) (n : Nat)
    (hn : n < 2 ^ 31) (h0 : color ≠ 0) (hc : Mapped m color (4 * n))
    (hs : Mapped m (color - 2) (4 * n)) :
    Separate color color n ∧
      ∃ r, alpha_and_stencil_blend m color color stencil n = .ok r ∧
        ∀ i : Nat, i < n →
          r.1 (color + 4 * i + 3) = m (color + 4 * i + 1) ∧
          r.1 (color + 4 * i) = m (color + 4 * i) ∧
          r.1 (color + 4 * i + 1) = m (color + 4 * i + 1) ∧
          r.1 (color + 4 * i + 2) = m (color + 4 * i + 2) := by
  refine ⟨separate_self color n, ?_⟩
  obtain ⟨m', hb, hr⟩ := blend_mapped m color color stencil n hn h0 hc hs
  refine ⟨_, hr, fun i hi => ⟨?_, ?_, ?_, ?_⟩⟩
  · exact blend_bytes_alpha m m' color color n
      (noClobber_of_separate _ _ _ (separate_self color n)) hb i hi
  · exact blend_bytes_frame m m' color color n hb _ (fun j _ => by omega)
  · exact blend_bytes_frame m m' color color n hb _ (fun j _ => by omega)
  · exact blend_bytes_frame m m' color color n hb _ (fun j _ => by omega)

/-- Witness of C15: five pixels `(4i+2, 4i+3, 4i+4, 4i+5)` blended with
themselves become `(4i+2, 4i+3, 4i+4, 4i+3)`. -/
theorem self_aliasing_witness :
    ((5 : Nat) < 2 ^ 31 ∧ (100 : Int) ≠ 0 ∧ Mapped mem_self 100 (4 * 5) ∧
        Mapped mem_self (100 - 2) (4 * 5)) ∧
      (dump mem_self 100 8
        = [some 2, some 3, some 4, some 5, some 6, some 7, some 8, some 9]) ∧
      ((alpha_and_stencil_blend mem_self 100 100 0 (5 : Nat)).toOption.map
          (fun r => dump r.1 100 8)
        = some [some 2, some 3, some 4, some 3, some 6, some 7, some 8, some 7]) ∧
      (Separate 100 100 5 ∧
        ∃ r, alpha_and_stencil_blend mem_self 100 100 0 (5 : Nat) = .ok r ∧
          ∀ i : Nat, i < 5 →
            r.1 (100 + 4 * i + 3) = mem_self (100 + 4 * i + 1) ∧
            r.1 (100 + 4 * i) = mem_self (100 + 4 * i) ∧
            r.1 (100 + 4 * i + 1) = mem_self (100 + 4 * i + 1) ∧
            r.1 (100 + 4 * i + 2) = mem_self (100 + 4 * i + 2)) :=
  ⟨⟨by decide, by decide, by decide, by decide⟩, by decide, by decide,
    self_aliasing mem_self 100 0 5 (by decide) (by decide) (by decide) (by decide)⟩

/-- C16, fixed points.  For a non-null opacity source, mapped buffers and
buffers that do not make the kernel read an alpha byte it has already written
(as for disjoint buffers), the call returns, and the memory it returns is the
memory it was given if and only if the alpha byte of every pixel `i < n` of the
color buffer already is the green byte of pixel `i` of the opacity source. -/
theorem fixed_point_iff (m : Memory) (color alpha stencil : Int) (n : Nat)
    (hn : n < 2 ^ 31) (ha : alpha ≠ 0) (hc : Mapped m color (4 * n))
    (hs : Mapped m (alpha - 2) (4 * n)) (hx : NoClobber color alpha n) :
    ∃ r, alpha_and_stencil_blend m color alpha stencil n = .ok r ∧
      (r.1 = m ↔ ∀ i : Nat, i < n → m (color + 4 * i + 3) = m (alpha + 4 * i + 1)) := by
  obtain ⟨m', hb, hr⟩ := blend_mapped m color alpha stencil n hn ha hc hs
  refine ⟨_, hr, ?_, ?_⟩
  · intro h i hi
    have h' : m' = m := h
    have := blend_bytes_alpha m m' color alpha n hx hb i hi
    rw [h'] at this; exact this
  · intro h
    funext x
    show m' x = m x
    by_cases hj : ∃ j : Nat, j < n ∧ x = color + 4 * j + 3
    · obtain ⟨j, hj, rfl⟩ := hj
      rw [blend_bytes_alpha m m' color alpha n hx hb j hj, h j hj]
    · exact blend_bytes_frame m m' color alpha n hb x (fun j hj' hxj => hj ⟨j, hj', hxj⟩)

/-- Witness of C16: color alpha bytes `200` under an opacity source with green
bytes `200` are a fixed point; color alpha bytes `0` are not. -/
theorem fixed_point_iff_witness :
    ((5 : Nat) < 2 ^ 31 ∧ (200 : Int) ≠ 0 ∧ Mapped (mem5c 200) 100 (4 * 5) ∧
        Mapped (mem5c 200) (200 - 2) (4 * 5) ∧ NoClobber 100 200 5) ∧
      (∀ i : Nat, i < 5 → mem5c 200 (100 + 4 * i + 3) = mem5c 200 (200 + 4 * i + 1)) ∧
      (¬ ∀ i : Nat, i < 5 → mem5c 0 (100 + 4 * i + 3) = mem5c 0 (200 + 4 * i + 1)) ∧
      ∃ r, alpha_and_stencil_blend (mem5c 200) 100 200 0 (5 : Nat) = .ok r ∧
        (r.1 = mem5c 200 ↔
          ∀ i : Nat, i < 5 → mem5c 200 (100 + 4 * i + 3) = mem5c 200 (200 + 4 * i + 1)) :=
  ⟨⟨by decide, by decide, by decide, by decide, by decide⟩, by decide, by decide,
    fixed_point_iff (mem5c 200) 100 200 0 5 (by decide) (by decide) (by decide) (by decide)
      (by decide)⟩

end Blender
